import Mathlib

/-!
# ollama-symlinks: discovery of Ollama manifests and materialisation of symlinks

A shallow embedding of `ollama-symlinks.go`.

* Go strings are lists of characters (`Str`); the functions of package `strings`
  and `path/filepath` that the program calls are defined on them (Unix rules).
* The destination file system is an explicit state: a table from canonical
  absolute paths to nodes (directory, regular file, symbolic link) and a current
  directory.  `os.Lstat`, `os.Stat`, `os.Mkdir`, `os.MkdirAll` and `os.Symlink`
  resolve their path argument component by component, following symbolic links
  the way POSIX does.  Permissions, quotas and I/O faults are not part of the
  state: an operation fails only for a reason that can be read off the namespace.
* The manifest tree is the input of `filepath.Walk`: a tree of entries, each of
  which may fail to be inspected or listed, and whose regular files either
  cannot be read, do not parse, or hold a manifest.
* Console output is a list of `Line` values, one constructor per `Printf`.
* Ranging over a Go map visits the entries in an unspecified order; the order
  is a parameter (`RangeOrder`) of every function that ranges over one.
-/

namespace OllamaSymlinks

/-- A Go string. -/
abbrev Str := List Char

/-! ## Package `strings` -/

namespace strings

/-- The Go function `strings.HasPrefix`. -/
def HasPrefix (s pre : Str) : Bool :=
  pre.isPrefixOf s

/-- The Go function `strings.TrimPrefix`. -/
def TrimPrefix (s pre : Str) : Str :=
  if HasPrefix s pre then s.drop pre.length else s

/-- The Go function `strings.Trim` for a cutset of one character. -/
def Trim (s : Str) (cut : Char) : Str :=
  ((s.dropWhile (· == cut)).reverse.dropWhile (· == cut)).reverse

/-- The Go function `strings.Split` for a separator of one character. -/
def Split (s : Str) (sep : Char) : List Str :=
  s.splitOn sep

/-- The Go function `strings.Join` for a separator of one character. -/
def Join (elems : List Str) (sep : Char) : Str :=
  [sep].intercalate elems

/-- The Go function `strings.Replace` for one-character `old` and `new` and a
count `n ≥ 0`: the first `n` occurrences of `old` are replaced. -/
def Replace : Str → Char → Char → Nat → Str
  | [], _, _, _ => []
  | c :: cs, _, _, 0 => c :: cs
  | c :: cs, old, new, n + 1 =>
    if c = old then new :: Replace cs old new n else c :: Replace cs old new (n + 1)

end strings

/-! ## Package `path/filepath` (Unix) -/

namespace filepath

/-- The element loop of `filepath.Clean`: `out` is the output written so far
(its elements, last one first), `rooted` says whether the path starts with a
separator. The result is the output once every element is read. -/
def cleanElems (rooted : Bool) : List Str → List Str → List Str
  | out, [] => out
  | out, e :: rest =>
    if e = [] ∨ e = ['.'] then
      -- empty path element, or a "." element
      cleanElems rooted out rest
    else if e = ['.', '.'] then
      -- ".." element: remove to last separator
      match out with
      | top :: out1 =>
        if top = ['.', '.'] then cleanElems rooted (['.', '.'] :: out) rest
        else cleanElems rooted out1 rest
      | [] =>
        if rooted then cleanElems rooted [] rest
        else cleanElems rooted [['.', '.']] rest
    else
      -- real path element
      cleanElems rooted (e :: out) rest

/-- The Go function `filepath.Clean`. -/
def Clean (path : Str) : Str :=
  let rooted : Bool := path.head? = some '/'
  let out := (cleanElems rooted [] (path.splitOn '/')).reverse
  if rooted then '/' :: strings.Join out '/'
  else if out = [] then ['.']
  else strings.Join out '/'

/-- The Go function `filepath.Base`: the last element of a path. -/
def Base (path : Str) : Str :=
  if path = [] then ['.']
  else
    let stripped := (path.reverse.dropWhile (· == '/')).reverse
    if stripped = [] then ['/']
    else (stripped.reverse.takeWhile (· != '/')).reverse

/-- The Go function `filepath.Join`: leading empty elements are ignored, the
rest is joined with separators and cleaned. -/
def Join (elem : List Str) : Str :=
  match elem.dropWhile (fun e => decide (e = [])) with
  | [] => []
  | es => Clean (strings.Join es '/')

end filepath

/-! ## Manifests and discovered models -/

/-- One entry of `OllamaManifest.Layers` (and the shape of `Config`). -/
structure Blob where
  MediaType : Str
  Digest : Str
  Size : Int
deriving DecidableEq, Repr

/-- The Go struct `OllamaManifest`. -/
structure OllamaManifest where
  SchemaVersion : Int
  MediaType : Str
  Config : Blob
  Layers : List Blob
deriving DecidableEq, Repr

/-- A Go `map[string]string`: a table with at most one value per key. -/
abbrev GoMap := List (Str × Str)

/-- Assignment `m[k] = v` on a Go map. -/
def GoMap.set : GoMap → Str → Str → GoMap
  | [], k, v => [(k, v)]
  | (k1, v1) :: rest, k, v =>
    if k1 = k then (k, v) :: rest else (k1, v1) :: GoMap.set rest k v

/-- The Go struct `ModelInfo`. -/
structure ModelInfo where
  Name : Str
  MainModelBlob : Str
  AdditionalBlobs : GoMap
deriving DecidableEq, Repr

/-- The order in which a `range` loop visits the entries of a map. -/
abbrev RangeOrder := GoMap → List (Str × Str)

/-- A range order is lawful when it visits every entry exactly once. -/
def RangeOrder.Lawful (ρ : RangeOrder) : Prop :=
  ∀ m : GoMap, (ρ m).Perm m

/-- Media type of the layer that holds the model weights. -/
def mediaTypeModel : Str := "application/vnd.ollama.image.model".toList

/-- Media type of the layer that holds a multimodal projector. -/
def mediaTypeProjector : Str := "application/vnd.ollama.image.projector".toList

/-! ## The file system -/

/-- What a name in a directory refers to. -/
inductive Node where
  | dir
  | file
  | link (target : Str)
deriving DecidableEq, Repr

/-- A canonical absolute path: the names from the root down, the root being `[]`. -/
abbrev CPath := List Str

/-- The file-system state: the current directory and the table of entries. The
root directory always exists and is not listed. -/
structure FS where
  cwd : CPath
  entries : List (CPath × Node)
deriving DecidableEq, Repr

/-- Error numbers the modelled system calls report. -/
inductive Errno where
  | ENOENT
  | ENOTDIR
  | EEXIST
  | ELOOP
deriving DecidableEq, Repr

deriving instance DecidableEq for Except

/-- First entry of a table stored under key `p`. -/
def lookupEntry (p : CPath) : List (CPath × Node) → Option Node
  | [] => none
  | (k, n) :: rest => if k = p then some n else lookupEntry p rest

/-- The node at a canonical path, if any. -/
def FS.node (fs : FS) (p : CPath) : Option Node :=
  if p = [] then some Node.dir else lookupEntry p fs.entries

/-- The state with a new entry `n` stored under `p`. -/
def FS.insert (fs : FS) (p : CPath) (n : Node) : FS :=
  { fs with entries := (p, n) :: fs.entries }

/-- Outcome of resolving a path. -/
inductive Walked where
  /-- The path names an existing node. -/
  | found (p : CPath) (n : Node)
  /-- Every component but the last resolves to the directory `parent`, which
  has no entry called `name`. -/
  | missing (parent : CPath) (name : Str)
  /-- Resolution fails. -/
  | err (e : Errno)
deriving DecidableEq, Repr

/-- The non-empty components of a path string. -/
def components (path : Str) : List Str :=
  (path.splitOn '/').filter (fun c => decide (c ≠ []))

/-- Path resolution from the directory `cur` over the remaining components.
A symbolic link met on the way is replaced by the components of its target; the
last component is followed only when `follow` is set.  `budget` bounds the number
of components looked at, as `PATH_MAX` and the link-nesting limit do in a kernel;
when it runs out the walk fails with `ELOOP`. -/
def walkPath (fs : FS) (follow : Bool) : Nat → CPath → List Str → Walked
  | _, cur, [] => Walked.found cur Node.dir
  | 0, _, _ :: _ => Walked.err Errno.ELOOP
  | budget + 1, cur, c :: rest =>
    if c = ['.'] then walkPath fs follow budget cur rest
    else if c = ['.', '.'] then walkPath fs follow budget cur.dropLast rest
    else
      match fs.node (cur ++ [c]) with
      | none =>
        if rest = [] then Walked.missing cur c else Walked.err Errno.ENOENT
      | some Node.dir => walkPath fs follow budget (cur ++ [c]) rest
      | some Node.file =>
        if rest = [] then Walked.found (cur ++ [c]) Node.file
        else Walked.err Errno.ENOTDIR
      | some (Node.link t) =>
        if rest = [] ∧ follow = false then Walked.found (cur ++ [c]) (Node.link t)
        else if t = [] then Walked.err Errno.ENOENT
        else
          walkPath fs follow budget (if t.head? = some '/' then [] else cur)
            (components t ++ rest)

/-- Number of components a single resolution may look at. -/
def pathBudget : Nat := 256

/-- Resolution of a path string: from the root when it starts with a separator,
from the current directory otherwise. The empty path names nothing. -/
def namei (fs : FS) (follow : Bool) (path : Str) : Walked :=
  if path = [] then Walked.err Errno.ENOENT
  else
    walkPath fs follow pathBudget (if path.head? = some '/' then [] else fs.cwd)
      (components path)

namespace os

/-- The system call behind `os.Lstat`: the node a path names, a symbolic link in
last position not being followed. -/
def Lstat (fs : FS) (path : Str) : Except Errno Node :=
  match namei fs false path with
  | Walked.found _ n => Except.ok n
  | Walked.missing _ _ => Except.error Errno.ENOENT
  | Walked.err e => Except.error e

/-- The system call behind `os.Stat`: like `Lstat`, following a symbolic link in
last position. -/
def Stat (fs : FS) (path : Str) : Except Errno Node :=
  match namei fs true path with
  | Walked.found _ n => Except.ok n
  | Walked.missing _ _ => Except.error Errno.ENOENT
  | Walked.err e => Except.error e

/-- The system call behind `os.Mkdir`: a directory is created where the path names
nothing and its parent resolves to a directory. -/
def Mkdir (fs : FS) (path : Str) : Except Errno FS :=
  match namei fs false path with
  | Walked.found _ _ => Except.error Errno.EEXIST
  | Walked.missing parent name => Except.ok (fs.insert (parent ++ [name]) Node.dir)
  | Walked.err e => Except.error e

/-- The system call behind `os.Symlink`: a symbolic link holding `oldname` is
created at `newname`, which must name nothing in an existing directory. -/
def Symlink (fs : FS) (oldname newname : Str) : Except Errno FS :=
  match namei fs false newname with
  | Walked.found _ _ => Except.error Errno.EEXIST
  | Walked.missing parent name =>
    Except.ok (fs.insert (parent ++ [name]) (Node.link oldname))
  | Walked.err e => Except.error e

/-- In `os.MkdirAll`: `path[:j-1]`, the parent to create first, when `j > 1`;
`j` is the index where the last element starts, trailing separators skipped. -/
def parentOf (path : Str) : Option Str :=
  let upToI := path.reverse.dropWhile (· == '/')
  let upToJ := upToI.dropWhile (· != '/')
  if 1 < upToJ.length then some (upToJ.drop 1).reverse else none

/-- The Go function `os.MkdirAll`; `depth` bounds the recursion over parents.
The result is the state reached together with the error, if any: directories
made before a failure stay. -/
def mkdirAllAux : Nat → FS → Str → FS × Option Errno
  | 0, fs, _ => (fs, some Errno.ELOOP)
  | depth + 1, fs, path =>
    -- Fast path: if we can tell whether path is a directory or file, stop.
    match Stat fs path with
    | Except.ok Node.dir => (fs, none)
    | Except.ok _ => (fs, some Errno.ENOTDIR)
    | Except.error _ =>
      -- Slow path: make sure parent exists and then call Mkdir for path.
      let parent : FS × Option Errno :=
        match parentOf path with
        | some par => mkdirAllAux depth fs par
        | none => (fs, none)
      match parent with
      | (fs1, some e) => (fs1, some e)
      | (fs1, none) =>
        match Mkdir fs1 path with
        | Except.ok fs2 => (fs2, none)
        | Except.error e =>
          match Lstat fs1 path with
          | Except.ok Node.dir => (fs1, none)
          | _ => (fs1, some e)

/-- The Go function `os.MkdirAll`. The recursion over parents shortens the path
at every call, so a depth of `path.length + 1` is never exhausted. -/
def MkdirAll (fs : FS) (path : Str) : FS × Option Errno :=
  mkdirAllAux (path.length + 1) fs path

end os

/-! ## Console output -/

/-- One line printed by the program, by the `Printf` that prints it. -/
inductive Line where
  | scanning (ollamaDir : Str)
  | target (lmstudioDir : Str)
  | dryRunMode
  | blank
  | noModels
  | found (count : Nat)
  | bullet (name : Str)
  | summary (created skipped : Nat)
  | available
  | warnRead (path : Str)
  | warnParse (path : Str)
  | warnPathFormat (path : Str)
  | warnNoMainBlob (name : Str)
  | skipped (name : Str)
  | creating (name : Str)
  | errorDirectory (name : Str) (e : Errno)
  | errorSymlink (name : Str) (e : Errno)
  | mainModel (path source : Str)
  | additionalExists (filename : Str)
  | warnAdditional (filename : Str) (e : Errno)
  | additional (path source : Str)
  | wouldCreate (path source : Str)
  | fatalDiscover
  | fatalProviderDir (e : Errno)
deriving DecidableEq, Repr

/-- The `ERROR` lines: a model's directory or primary link could not be made. -/
def Line.isError : Line → Bool
  | Line.errorDirectory _ _ => true
  | Line.errorSymlink _ _ => true
  | _ => false

/-- The `Warning` line of a failed auxiliary link. -/
def Line.isLinkWarning : Line → Bool
  | Line.warnAdditional _ _ => true
  | _ => false

/-! ## The manifest tree walked by `filepath.Walk` -/

/-- What `os.ReadFile` followed by `json.Unmarshal` yields for a file. -/
inductive FileContent where
  | readError
  | invalid
  | manifest (m : OllamaManifest)
deriving DecidableEq, Repr

mutual
/-- An entry `filepath.Walk` has inspected: a non-directory with what reading it
gives, or a directory with its listing (`none` when it cannot be listed). -/
inductive WalkNode where
  | file (content : FileContent)
  | dir (listing : Option WalkEntries)
/-- A directory listing in the order `filepath.Walk` visits it; an entry whose
node is `none` cannot be inspected (`lstat` fails). -/
inductive WalkEntries where
  | nil
  | cons (name : Str) (node : Option WalkNode) (rest : WalkEntries)
end

/-- The part of `os.FileInfo` the program reads. -/
structure FileInfo where
  Name : Str
  IsDir : Bool
deriving DecidableEq, Repr

/-- Errors that travel through `filepath.Walk`. -/
inductive WalkError where
  | SkipDir
  | SkipAll
  | lstat (path : Str)
  | readdir (path : Str)
deriving DecidableEq, Repr

/-- The variables `discoverModels` accumulates: the `models` slice and the
console output. -/
structure Discovery where
  models : List ModelInfo
  out : List Line
deriving DecidableEq, Repr

/-- Print `line` when `verbose` is set. -/
def Discovery.warn (acc : Discovery) (verbose : Bool) (line : Line) : Discovery :=
  if verbose then { acc with out := acc.out ++ [line] } else acc

/-- The loop over `manifest.Layers` in `discoverModels`. -/
def scanLayers (fullModelName : Str) : List Blob → ModelInfo → ModelInfo
  | [], modelInfo => modelInfo
  | layer :: rest, modelInfo =>
    if layer.MediaType = mediaTypeModel then
      scanLayers fullModelName rest { modelInfo with MainModelBlob := layer.Digest }
    else if layer.MediaType = mediaTypeProjector then
      -- For multimodal models like llava
      let projectorName := fullModelName ++ "-projector.bin".toList
      scanLayers fullModelName rest
        { modelInfo with
          AdditionalBlobs := modelInfo.AdditionalBlobs.set layer.Digest projectorName }
    else scanLayers fullModelName rest modelInfo

/-- The function literal `discoverModels` passes to `filepath.Walk`. `content`
is what reading and parsing the file at `path` gives; it is looked at only for
a non-directory. -/
def walkFn (manifestsDir : Str) (verbose : Bool) (path : Str) (info : Option FileInfo)
    (err : Option WalkError) (content : FileContent) (acc : Discovery) :
    Discovery × Option WalkError :=
  match err with
  | some e => (acc, some e)
  | none =>
    match info with
    | none => (acc, none) -- not reached: Walk passes an info whenever err is nil
    | some info =>
      -- Skip directories and hidden files
      if info.IsDir || strings.HasPrefix info.Name ['.'] then (acc, none)
      else
        -- Parse manifest file
        match content with
        | FileContent.readError => (acc.warn verbose (Line.warnRead path), none)
        | FileContent.invalid => (acc.warn verbose (Line.warnParse path), none)
        | FileContent.manifest manifest =>
          -- Extract model name from path
          let relativePath := strings.TrimPrefix path manifestsDir
          let pathParts := strings.Split (strings.Trim relativePath '/') '/'
          if pathParts.length < 3 then
            (acc.warn verbose (Line.warnPathFormat path), none)
          else
            -- Extract model name and variant
            let modelName := pathParts.getD (pathParts.length - 2) []
            let variant := pathParts.getD (pathParts.length - 1) []
            let fullModelName := modelName ++ ['-'] ++ variant
            -- Parse layers to find model components
            let modelInfo := scanLayers fullModelName manifest.Layers
              { Name := fullModelName, MainModelBlob := [], AdditionalBlobs := [] }
            if modelInfo.MainModelBlob = [] then
              (acc.warn verbose (Line.warnNoMainBlob fullModelName), none)
            else
              ({ acc with models := acc.models ++ [modelInfo] }, none)

/-- What a directory holds when it is never read. -/
def noContent : FileContent := FileContent.readError

mutual
/-- The Go function `filepath.walk` (the recursive descent of `filepath.Walk`),
with the callback of `discoverModels`. `name` is the entry's own name. -/
def walk (manifestsDir : Str) (verbose : Bool) :
    Str → Str → WalkNode → Discovery → Discovery × Option WalkError
  | path, name, WalkNode.file content, acc =>
    walkFn manifestsDir verbose path (some ⟨name, false⟩) none content acc
  | path, name, WalkNode.dir none, acc =>
    -- readDirNames fails: the callback is told, and what it returns is returned
    walkFn manifestsDir verbose path (some ⟨name, true⟩)
      (some (WalkError.readdir path)) noContent acc
  | path, name, WalkNode.dir (some names), acc =>
    match walkFn manifestsDir verbose path (some ⟨name, true⟩) none noContent acc with
    | (acc1, some err1) => (acc1, some err1)
    | (acc1, none) => walkNames manifestsDir verbose path names acc1
/-- The loop `for _, name := range names` of `filepath.walk`. -/
def walkNames (manifestsDir : Str) (verbose : Bool) :
    Str → WalkEntries → Discovery → Discovery × Option WalkError
  | _, WalkEntries.nil, acc => (acc, none)
  | path, WalkEntries.cons name none rest, acc =>
    let filename := filepath.Join [path, name]
    match walkFn manifestsDir verbose filename none
        (some (WalkError.lstat filename)) noContent acc with
    | (acc1, some err) =>
      if err ≠ WalkError.SkipDir ∧ err ≠ WalkError.SkipAll then (acc1, some err)
      else walkNames manifestsDir verbose path rest acc1
    | (acc1, none) => walkNames manifestsDir verbose path rest acc1
  | path, WalkEntries.cons name (some node) rest, acc =>
    let filename := filepath.Join [path, name]
    match walk manifestsDir verbose filename name node acc with
    | (acc1, some err) =>
      let isDir : Bool := match node with
        | WalkNode.dir _ => true
        | WalkNode.file _ => false
      if isDir = false ∨ err ≠ WalkError.SkipDir then (acc1, some err)
      else walkNames manifestsDir verbose path rest acc1
    | (acc1, none) => walkNames manifestsDir verbose path rest acc1
end

/-- The Go function `filepath.Walk` with the callback of `discoverModels`;
`root` is what `os.Lstat` of the root path gives (`none` when it fails). -/
def Walk (manifestsDir : Str) (verbose : Bool) (rootPath : Str) (root : Option WalkNode)
    (acc : Discovery) : Discovery × Option WalkError :=
  let r : Discovery × Option WalkError :=
    match root with
    | none =>
      walkFn manifestsDir verbose rootPath none (some (WalkError.lstat rootPath))
        noContent acc
    | some node => walk manifestsDir verbose rootPath (filepath.Base rootPath) node acc
  match r with
  | (acc1, some WalkError.SkipDir) => (acc1, none)
  | (acc1, some WalkError.SkipAll) => (acc1, none)
  | (acc1, err) => (acc1, err)

/-- The Go function `discoverModels`. `manifests` is the tree found at
`{ollamaDir}/manifests`. The result is the `models` slice, the error, and the
lines printed. -/
def discoverModels (ollamaDir : Str) (verbose : Bool) (manifests : Option WalkNode) :
    List ModelInfo × Option WalkError × List Line :=
  let manifestsDir := filepath.Join [ollamaDir, "manifests".toList]
  match Walk manifestsDir verbose manifestsDir manifests ⟨[], []⟩ with
  | (acc, err) => (acc.models, err, acc.out)

/-! ## Materialising the links -/

/-- What `processModel` returns and leaves behind: the boolean, the file system
and the lines printed. -/
structure Outcome where
  result : Bool
  fs : FS
  out : List Line
deriving DecidableEq, Repr

/-- The loop over `model.AdditionalBlobs` of a live run, over the entries in the
order the `range` visits them. -/
def additionalLoop (ollamaDir modelDir : Str) (verbose : Bool) :
    List (Str × Str) → FS → FS × List Line
  | [], fs => (fs, [])
  | (blobHash, filename) :: rest, fs =>
    let additionalPath := filepath.Join [modelDir, filename]
    -- Convert digest format from "sha256:hash" to "sha256-hash" for blob filename
    let blobFilename := strings.Replace blobHash ':' '-' 1
    let additionalSource := filepath.Join [ollamaDir, "blobs".toList, blobFilename]
    -- Skip if already exists
    match os.Lstat fs additionalPath with
    | Except.ok _ =>
      let r := additionalLoop ollamaDir modelDir verbose rest fs
      (r.1, (if verbose then [Line.additionalExists filename] else []) ++ r.2)
    | Except.error _ =>
      match os.Symlink fs additionalSource additionalPath with
      | Except.error e =>
        let r := additionalLoop ollamaDir modelDir verbose rest fs
        (r.1, Line.warnAdditional filename e :: r.2)
      | Except.ok fs1 =>
        let r := additionalLoop ollamaDir modelDir verbose rest fs1
        (r.1, (if verbose then [Line.additional additionalPath additionalSource] else [])
          ++ r.2)

/-- The loop over `model.AdditionalBlobs` of a dry run. -/
def additionalDryLoop (ollamaDir modelDir : Str) : List (Str × Str) → List Line
  | [] => []
  | (blobHash, filename) :: rest =>
    let additionalPath := filepath.Join [modelDir, filename]
    let blobFilename := strings.Replace blobHash ':' '-' 1
    let additionalSource := filepath.Join [ollamaDir, "blobs".toList, blobFilename]
    Line.wouldCreate additionalPath additionalSource
      :: additionalDryLoop ollamaDir modelDir rest

/-- The Go function `processModel`. -/
def processModel (ρ : RangeOrder) (model : ModelInfo) (ollamaDir ollamaProviderDir : Str)
    (dryRun verbose : Bool) (fs : FS) : Outcome :=
  let modelDir := filepath.Join [ollamaProviderDir, model.Name]
  let mainModelPath := filepath.Join [modelDir, model.Name ++ ".gguf".toList]
  -- Check if main model symlink already exists
  match os.Lstat fs mainModelPath with
  | Except.ok _ => ⟨false, fs, [Line.skipped model.Name]⟩
  | Except.error _ =>
    if dryRun = false then
      -- Create model directory
      match os.MkdirAll fs modelDir with
      | (fs1, some e) =>
        ⟨false, fs1, [Line.creating model.Name, Line.errorDirectory model.Name e]⟩
      | (fs1, none) =>
        -- Create main model symlink
        let blobFilename := strings.Replace model.MainModelBlob ':' '-' 1
        let sourcePath := filepath.Join [ollamaDir, "blobs".toList, blobFilename]
        match os.Symlink fs1 sourcePath mainModelPath with
        | Except.error e =>
          ⟨false, fs1, [Line.creating model.Name, Line.errorSymlink model.Name e]⟩
        | Except.ok fs2 =>
          -- Create additional component symlinks (e.g., projector for llava)
          let r := additionalLoop ollamaDir modelDir verbose (ρ model.AdditionalBlobs) fs2
          ⟨true, r.1,
            Line.creating model.Name
              :: (if verbose then [Line.mainModel mainModelPath sourcePath] else [])
              ++ r.2⟩
    else
      -- Dry run - just show what would be done
      let blobFilename := strings.Replace model.MainModelBlob ':' '-' 1
      let sourcePath := filepath.Join [ollamaDir, "blobs".toList, blobFilename]
      ⟨true, fs,
        Line.creating model.Name :: Line.wouldCreate mainModelPath sourcePath
          :: additionalDryLoop ollamaDir modelDir (ρ model.AdditionalBlobs)⟩

/-- The variables of the loop `for _, model := range models` in `main`. -/
structure Tally where
  created : Nat
  skipped : Nat
  fs : FS
  out : List Line
deriving DecidableEq, Repr

/-- The loop `for _, model := range models` of `main`. -/
def processModels (ρ : RangeOrder) (ollamaDir ollamaProviderDir : Str)
    (dryRun verbose : Bool) : List ModelInfo → Tally → Tally
  | [], t => t
  | model :: rest, t =>
    let r := processModel ρ model ollamaDir ollamaProviderDir dryRun verbose t.fs
    processModels ρ ollamaDir ollamaProviderDir dryRun verbose rest
      (if r.result then ⟨t.created + 1, t.skipped, r.fs, t.out ++ r.out⟩
       else ⟨t.created, t.skipped + 1, r.fs, t.out ++ r.out⟩)

/-- How the process ends, the file system it leaves and what it printed. -/
structure Exit where
  status : Nat
  fs : FS
  out : List Line
deriving DecidableEq, Repr

/-- In `main`: the creation of the provider directory and the loop over the
models (everything after the list of models is printed). -/
def materialize (ρ : RangeOrder) (ollamaDir lmstudioDir : Str) (dryRun verbose : Bool)
    (models : List ModelInfo) (fs : FS) (out : List Line) : Exit :=
  -- Create ollama provider directory
  let ollamaProviderDir := filepath.Join [lmstudioDir, "ollama".toList]
  let made : FS × Option Errno :=
    if dryRun = false then os.MkdirAll fs ollamaProviderDir else (fs, none)
  match made with
  | (fs1, some e) => ⟨1, fs1, out ++ [Line.fatalProviderDir e]⟩
  | (fs1, none) =>
    -- Process each model
    let t := processModels ρ ollamaDir ollamaProviderDir dryRun verbose models
      ⟨0, 0, fs1, out⟩
    -- Summary
    ⟨0, t.fs,
      t.out ++ [Line.blank, Line.summary t.created t.skipped]
        ++ (if 0 < t.created ∧ dryRun = false then [Line.available] else [])⟩

/-- The Go function `main`, the flags being parameters: `manifests` is the tree
at `{ollamaDir}/manifests`, `fs` the file system the links are made in. A call
of `log.Fatalf` ends the process with status 1. -/
def main (ρ : RangeOrder) (ollamaDir lmstudioDir : Str) (dryRun verbose : Bool)
    (manifests : Option WalkNode) (fs : FS) : Exit :=
  let banner : List Line :=
    [Line.scanning ollamaDir, Line.target lmstudioDir]
      ++ (if dryRun then [Line.dryRunMode] else []) ++ [Line.blank]
  -- Discover models
  match discoverModels ollamaDir verbose manifests with
  | (_, some _, warnings) => ⟨1, fs, banner ++ warnings ++ [Line.fatalDiscover]⟩
  | (models, none, warnings) =>
    if models.length = 0 then ⟨0, fs, banner ++ warnings ++ [Line.noModels]⟩
    else
      materialize ρ ollamaDir lmstudioDir dryRun verbose models fs
        (banner ++ warnings ++ [Line.found models.length]
          ++ models.map (fun model => Line.bullet model.Name) ++ [Line.blank])

/-! ## Paths computed by `processModel` -/

/-- The value of `modelDir` in `processModel`. -/
def modelDirOf (ollamaProviderDir : Str) (model : ModelInfo) : Str :=
  filepath.Join [ollamaProviderDir, model.Name]

/-- The value of `mainModelPath` in `processModel`: the primary link path. -/
def mainModelPathOf (ollamaProviderDir : Str) (model : ModelInfo) : Str :=
  filepath.Join [modelDirOf ollamaProviderDir model, model.Name ++ ".gguf".toList]

/-- The value of `sourcePath` and of `additionalSource` in `processModel` for a
digest: the blob file under `{ollamaDir}/blobs`, the first `:` of the digest
replaced by `-`. -/
def blobPathOf (ollamaDir digest : Str) : Str :=
  filepath.Join [ollamaDir, "blobs".toList, strings.Replace digest ':' '-' 1]

/-! ## Notions the claims are stated with -/

/-- The digest of the last layer, in the order of the list, whose media type is that
of the model weights. -/
def lastModelDigest : List Blob → Option Str
  | [] => none
  | layer :: rest =>
    match lastModelDigest rest with
    | some d => some d
    | none => if layer.MediaType = mediaTypeModel then some layer.Digest else none

mutual
/-- The subtree can be walked: every directory can be listed and every entry
inspected. -/
def WalkNode.walkable : WalkNode → Bool
  | WalkNode.file _ => true
  | WalkNode.dir none => false
  | WalkNode.dir (some names) => names.walkable
/-- Every entry of the listing can be inspected and walked. -/
def WalkEntries.walkable : WalkEntries → Bool
  | WalkEntries.nil => true
  | WalkEntries.cons _ none _ => false
  | WalkEntries.cons _ (some node) rest => node.walkable && rest.walkable
end

mutual
/-- The manifests held by the files of a subtree. -/
def WalkNode.manifests : WalkNode → List OllamaManifest
  | WalkNode.file (FileContent.manifest m) => [m]
  | WalkNode.file _ => []
  | WalkNode.dir none => []
  | WalkNode.dir (some names) => names.manifests
/-- The manifests held by the files below the entries of a listing. -/
def WalkEntries.manifests : WalkEntries → List OllamaManifest
  | WalkEntries.nil => []
  | WalkEntries.cons _ none rest => rest.manifests
  | WalkEntries.cons _ (some node) rest => node.manifests ++ rest.manifests
end

/-- The manifests held by the files of the manifest tree. -/
def rootManifests : Option WalkNode → List OllamaManifest
  | none => []
  | some node => node.manifests

/-- A model `discoverModels` makes of a manifest: the layers scanned into a fresh
`ModelInfo` named `{family}-{variant}`, two path components, and kept because
a primary blob was found. -/
def Produced (m : OllamaManifest) (mi : ModelInfo) : Prop :=
  ∃ family variant : Str, '/' ∉ family ∧ '/' ∉ variant ∧
    mi = scanLayers (family ++ ['-'] ++ variant) m.Layers
      ⟨family ++ ['-'] ++ variant, [], []⟩ ∧
    mi.MainModelBlob ≠ []

/-- A name a directory entry can have, as one path element: not empty, without a
separator, and neither `.` nor `..`. -/
def PlainName (x : Str) : Prop :=
  x ≠ [] ∧ '/' ∉ x ∧ x ≠ ['.'] ∧ x ≠ ['.', '.']

/-- Whether the paths `filepath.Join` makes below `dir` start at the root. -/
def joinRooted (dir : Str) : Bool :=
  decide (dir.head? = some '/')

/-- The components, before the last one, of the paths `filepath.Join` makes by
joining one name to `dir`: the elements of `dir` as `filepath.Clean` leaves them. -/
def joinLead (dir : Str) : List Str :=
  (filepath.cleanElems (joinRooted dir) [] (dir.splitOn '/')).reverse

/-- The output of the element loop of `filepath.Clean` is in normal form when it is
made of plain names above `..` elements (last element first), the latter only in
a path that is not rooted. -/
def NormalOut (rooted : Bool) (out : List Str) : Prop :=
  ∃ (names : List Str) (k : Nat),
    out = names ++ List.replicate k ['.', '.'] ∧ (∀ p ∈ names, PlainName p) ∧
      (rooted = true → k = 0)

mutual
/-- Every name in the subtree is a plain path element. -/
def WalkNode.PlainNames : WalkNode → Prop
  | WalkNode.file _ => True
  | WalkNode.dir none => True
  | WalkNode.dir (some names) => names.PlainNames
/-- Every name in the listing and below it is a plain path element. -/
def WalkEntries.PlainNames : WalkEntries → Prop
  | WalkEntries.nil => True
  | WalkEntries.cons name none rest => PlainName name ∧ rest.PlainNames
  | WalkEntries.cons name (some node) rest =>
    PlainName name ∧ node.PlainNames ∧ rest.PlainNames
end

mutual
/-- The files of a subtree in the order `filepath.Walk` visits them, each with the
components of its path relative to the root of the walk, its name and what reading it
gives. `parts` are the components of the path of the subtree itself. -/
def WalkNode.files : List Str → Str → WalkNode → List (List Str × Str × FileContent)
  | parts, name, WalkNode.file content => [(parts, name, content)]
  | _, _, WalkNode.dir none => []
  | parts, _, WalkNode.dir (some names) => names.files parts
/-- The files below the entries of a listing, in the order of the walk. -/
def WalkEntries.files : List Str → WalkEntries → List (List Str × Str × FileContent)
  | _, WalkEntries.nil => []
  | parts, WalkEntries.cons _ none rest => rest.files parts
  | parts, WalkEntries.cons name (some node) rest =>
    node.files (parts ++ [name]) name ++ rest.files parts
end

/-- The path of the entry with relative components `parts` below the root `root` of
a walk. -/
def entryPath (root : Str) (parts : List Str) : Str :=
  if parts = [] then root else root ++ '/' :: strings.Join parts '/'

/-- What the callback of `discoverModels` appends to `models` for one file, given by
the components of its path relative to the manifests root, its name and what reading
it gives. -/
def fileModels (manifestsDir : Str) (verbose : Bool)
    (file : List Str × Str × FileContent) : List ModelInfo :=
  (walkFn manifestsDir verbose (entryPath manifestsDir file.1) (some ⟨file.2.1, false⟩)
    none file.2.2 ⟨[], []⟩).1.models

/-- The table describes a tree: whatever has an entry lies in a directory. -/
def FS.WellFormed (fs : FS) : Prop :=
  ∀ (p : CPath) (x : Str), fs.node (p ++ [x]) ≠ none → fs.node p = some Node.dir

/-! ## Example inputs -/

/-- The manifest of the scenario in the specification: one layer with the model
weights and one projector layer. -/
def exManifest : OllamaManifest :=
  { SchemaVersion := 2
    MediaType := "application/vnd.docker.distribution.manifest.v2+json".toList
    Config := ⟨"application/vnd.docker.container.image.v1+json".toList,
      "sha256:ccc333".toList, 485⟩
    Layers :=
      [⟨mediaTypeModel, "sha256:aaa111".toList, 4661211808⟩,
       ⟨mediaTypeProjector, "sha256:bbb222".toList, 624434368⟩] }

/-- A directory holding one entry. -/
def WalkNode.single (name : Str) (node : WalkNode) : WalkNode :=
  WalkNode.dir (some (WalkEntries.cons name (some node) WalkEntries.nil))

/-- The tree `manifests/registry.ollama.ai/library/llama3/8b`. -/
def exTree : WalkNode :=
  WalkNode.single "registry.ollama.ai".toList
    (WalkNode.single "library".toList
      (WalkNode.single "llama3".toList
        (WalkNode.single "8b".toList (WalkNode.file (FileContent.manifest exManifest)))))

/-- The model discovered in `exTree`. -/
def exModel : ModelInfo :=
  { Name := "llama3-8b".toList
    MainModelBlob := "sha256:aaa111".toList
    AdditionalBlobs := [("sha256:bbb222".toList, "llama3-8b-projector.bin".toList)] }

/-- A file system holding nothing but the root directory. -/
def emptyFS : FS := ⟨[], []⟩

/-- A destination tree in which the primary link of `exModel` exists and dangles,
and nothing else is in the model directory. -/
def danglingFS : FS :=
  { cwd := []
    entries :=
      [(["lms".toList, "ollama".toList, "llama3-8b".toList, "llama3-8b.gguf".toList],
          Node.link "/gone".toList),
       (["lms".toList, "ollama".toList, "llama3-8b".toList], Node.dir),
       (["lms".toList, "ollama".toList], Node.dir),
       (["lms".toList], Node.dir)] }

/-- A destination tree in which `{providerRoot}/aaa-x` is a symbolic link to the
directory `bbb-y` next to it, which does not exist yet. -/
def redirectFS : FS :=
  { cwd := []
    entries :=
      [(["lms".toList, "ollama".toList, "aaa-x".toList], Node.link "bbb-y".toList),
       (["lms".toList, "ollama".toList], Node.dir),
       (["lms".toList], Node.dir)] }

/-- A manifest with one layer, the model weights under `digest`. -/
def weightsOnly (digest : Str) : OllamaManifest :=
  { SchemaVersion := 2, MediaType := [], Config := ⟨[], [], 0⟩,
    Layers := [⟨mediaTypeModel, digest, 1⟩] }

/-- The tree holding `library/aaa/x` and `library/bbb/y`. -/
def twoModelTree : WalkNode :=
  WalkNode.single "library".toList
    (WalkNode.dir (some
      (WalkEntries.cons "aaa".toList
        (some (WalkNode.single "x".toList
          (WalkNode.file (FileContent.manifest (weightsOnly "sha256:a1".toList)))))
        (WalkEntries.cons "bbb".toList
          (some (WalkNode.single "y".toList
            (WalkNode.file (FileContent.manifest (weightsOnly "sha256:b2".toList)))))
          WalkEntries.nil))))

/-- The models discovered in `twoModelTree`. -/
def twoModels : List ModelInfo :=
  [⟨"aaa-x".toList, "sha256:a1".toList, []⟩, ⟨"bbb-y".toList, "sha256:b2".toList, []⟩]

/-- The tree `manifests/registry.ollama.ai/library/llama3/{file}`. -/
def llama3Tree (file : Str) (content : FileContent) : WalkNode :=
  WalkNode.single "registry.ollama.ai".toList
    (WalkNode.single "library".toList
      (WalkNode.single "llama3".toList (WalkNode.single file (WalkNode.file content))))

/-- A manifest with the model weights and two projector layers of different digests. -/
def twoProjectorManifest : OllamaManifest :=
  { SchemaVersion := 2, MediaType := [], Config := ⟨[], [], 0⟩,
    Layers :=
      [⟨mediaTypeModel, "sha256:aaa111".toList, 1⟩,
       ⟨mediaTypeProjector, "sha256:bbb222".toList, 1⟩,
       ⟨mediaTypeProjector, "sha256:ccc333".toList, 1⟩] }

/-- The model discovered from `twoProjectorManifest` at `…/llama3/8b`. -/
def twoProjectorModel : ModelInfo :=
  { Name := "llama3-8b".toList
    MainModelBlob := "sha256:aaa111".toList
    AdditionalBlobs :=
      [("sha256:bbb222".toList, "llama3-8b-projector.bin".toList),
       ("sha256:ccc333".toList, "llama3-8b-projector.bin".toList)] }

/-- A manifest root whose first entry is a directory that cannot be listed and whose
second entry leads to the manifest of the scenario, at `library/llama3/8b`. -/
def blockedFirstTree : WalkNode :=
  WalkNode.dir (some
    (WalkEntries.cons "a".toList (some (WalkNode.dir none))
      (WalkEntries.cons "library".toList
        (some (WalkNode.single "llama3".toList
          (WalkNode.single "8b".toList (WalkNode.file (FileContent.manifest exManifest)))))
        WalkEntries.nil)))

/-- A destination tree holding the provider directory `/lms/ollama` and nothing else. -/
def providerFS : FS :=
  { cwd := []
    entries := [(["lms".toList, "ollama".toList], Node.dir), (["lms".toList], Node.dir)] }

/-! ## Facts about the file system -/

/-- The state `fs2` extends `fs1`: it has the same current directory and every node
of `fs1`. -/
def FS.Le (fs1 fs2 : FS) : Prop :=
  fs1.cwd = fs2.cwd ∧ ∀ p n, fs1.node p = some n → fs2.node p = some n

theorem FS.Le.refl (fs : FS) : fs.Le fs :=
  ⟨rfl, fun _ _ h => h⟩

theorem FS.Le.trans {a b c : FS} (h1 : a.Le b) (h2 : b.Le c) : a.Le c :=
  ⟨h1.1.trans h2.1, fun p n h => h2.2 p n (h1.2 p n h)⟩

theorem FS.node_insert (fs : FS) (p : CPath) (n : Node) (q : CPath) :
    (fs.insert p n).node q =
      if q = [] then some Node.dir else if p = q then some n else fs.node q := by
  unfold FS.node FS.insert
  by_cases hq : q = []
  · simp [hq]
  · simp [hq, lookupEntry]

theorem FS.le_insert {fs : FS} {p : CPath} (n : Node) (h : fs.node p = none) :
    fs.Le (fs.insert p n) := by
  refine ⟨rfl, fun q m hq => ?_⟩
  rw [FS.node_insert]
  by_cases hq0 : q = []
  · simp [hq0] at hq ⊢
    simpa [FS.node] using hq
  · have hpq : p ≠ q := by
      rintro rfl
      rw [h] at hq
      cases hq
    simp [hq0, hpq, hq]

theorem walkPath_mono {fs fs2 : FS} (h : fs.Le fs2) (follow : Bool) :
    ∀ (budget : Nat) (cur : CPath) (cs : List Str) (p : CPath) (n : Node),
      walkPath fs follow budget cur cs = Walked.found p n →
      walkPath fs2 follow budget cur cs = Walked.found p n := by
  intro budget
  induction budget with
  | zero =>
    intro cur cs p n hw
    cases cs with
    | nil => simpa [walkPath] using hw
    | cons c rest => simp [walkPath] at hw
  | succ b ih =>
    intro cur cs p n hw
    cases cs with
    | nil => simpa [walkPath] using hw
    | cons c rest =>
      simp only [walkPath] at hw ⊢
      by_cases h1 : c = ['.']
      · simp only [h1, if_true] at hw ⊢
        exact ih _ _ _ _ hw
      · by_cases h2 : c = ['.', '.']
        · simp only [h2, if_true] at hw ⊢
          simp only [show (['.', '.'] : Str) ≠ ['.'] by decide, if_false] at hw ⊢
          exact ih _ _ _ _ hw
        · simp only [h1, h2, if_false] at hw ⊢
          cases hnode : fs.node (cur ++ [c]) with
          | none =>
            rw [hnode] at hw
            by_cases hr : rest = [] <;> simp [hr] at hw
          | some nd =>
            rw [hnode] at hw
            rw [h.2 _ _ hnode]
            cases nd with
            | dir => exact ih _ _ _ _ hw
            | file => exact hw
            | link t =>
              simp only at hw ⊢
              by_cases hc : rest = [] ∧ follow = false
              · simpa [hc] using hw
              · simp only [hc, if_false] at hw ⊢
                by_cases ht : t = []
                · simp [ht] at hw
                · simp only [ht, if_false] at hw ⊢
                  exact ih _ _ _ _ hw

theorem walkPath_missing {fs : FS} (x : Node) :
    ∀ (budget : Nat) (cur : CPath) (cs : List Str) (d : CPath) (name : Str),
      walkPath fs false budget cur cs = Walked.missing d name →
      fs.node (d ++ [name]) = none ∧
        walkPath (fs.insert (d ++ [name]) x) false budget cur cs
          = Walked.found (d ++ [name]) x := by
  intro budget
  induction budget with
  | zero =>
    intro cur cs d name hw
    cases cs with
    | nil => simp [walkPath] at hw
    | cons c rest => simp [walkPath] at hw
  | succ b ih =>
    intro cur cs d name hw
    cases cs with
    | nil => simp [walkPath] at hw
    | cons c rest =>
      simp only [walkPath] at hw ⊢
      by_cases h1 : c = ['.']
      · simp only [h1, if_true] at hw ⊢
        exact ih _ _ _ _ hw
      · by_cases h2 : c = ['.', '.']
        · simp only [h2, if_true] at hw ⊢
          simp only [show (['.', '.'] : Str) ≠ ['.'] by decide, if_false] at hw ⊢
          exact ih _ _ _ _ hw
        · simp only [h1, h2, if_false] at hw ⊢
          cases hnode : fs.node (cur ++ [c]) with
          | none =>
            rw [hnode] at hw
            by_cases hr : rest = []
            · simp only [hr, if_true] at hw
              injection hw with hd hn
              subst hd; subst hn
              refine ⟨hnode, ?_⟩
              have hins : (fs.insert (cur ++ [c]) x).node (cur ++ [c]) = some x := by
                rw [FS.node_insert]; simp
              rw [hins, hr]
              cases x with
              | dir => simp [walkPath]
              | file => simp
              | link t => simp
            · simp [hr] at hw
          | some nd =>
            rw [hnode] at hw
            cases nd with
            | dir =>
              obtain ⟨hnone, hfound⟩ := ih _ _ _ _ hw
              refine ⟨hnone, ?_⟩
              rw [(FS.le_insert x hnone).2 _ _ hnode]
              exact hfound
            | file =>
              by_cases hr : rest = [] <;> simp [hr] at hw
            | link t =>
              simp only at hw
              by_cases hc : rest = [] ∧ (false = false)
              · simp [hc.1] at hw
              · have hr : rest ≠ [] := fun hr => hc ⟨hr, rfl⟩
                simp only [hr, false_and, if_false] at hw
                by_cases ht : t = []
                · simp [ht] at hw
                · simp only [ht, if_false] at hw
                  obtain ⟨hnone, hfound⟩ := ih _ _ _ _ hw
                  refine ⟨hnone, ?_⟩
                  rw [(FS.le_insert x hnone).2 _ _ hnode]
                  simp only [hr, false_and, if_false, ht]
                  exact hfound

theorem namei_mono {fs fs2 : FS} (h : fs.Le fs2) (follow : Bool) (path : Str)
    (p : CPath) (n : Node) (hw : namei fs follow path = Walked.found p n) :
    namei fs2 follow path = Walked.found p n := by
  unfold namei at hw ⊢
  by_cases hp : path = []
  · simp [hp] at hw
  · simp only [hp, if_false] at hw ⊢
    rw [← h.1]
    exact walkPath_mono h follow _ _ _ _ _ hw

theorem os.Lstat_ok_iff (fs : FS) (path : Str) (n : Node) :
    os.Lstat fs path = Except.ok n ↔ ∃ p, namei fs false path = Walked.found p n := by
  unfold os.Lstat
  cases hn : namei fs false path <;> simp

theorem os.Stat_ok_iff (fs : FS) (path : Str) (n : Node) :
    os.Stat fs path = Except.ok n ↔ ∃ p, namei fs true path = Walked.found p n := by
  unfold os.Stat
  cases hn : namei fs true path <;> simp

theorem os.Lstat_mono {fs fs2 : FS} (h : fs.Le fs2) {path : Str} {n : Node}
    (hl : os.Lstat fs path = Except.ok n) : os.Lstat fs2 path = Except.ok n := by
  rw [os.Lstat_ok_iff] at hl ⊢
  obtain ⟨p, hp⟩ := hl
  exact ⟨p, namei_mono h false path p n hp⟩

theorem namei_missing {fs : FS} (x : Node) {path : Str} {d : CPath} {name : Str}
    (hw : namei fs false path = Walked.missing d name) :
    fs.node (d ++ [name]) = none ∧
      namei (fs.insert (d ++ [name]) x) false path = Walked.found (d ++ [name]) x := by
  unfold namei at hw ⊢
  by_cases hp : path = []
  · simp [hp] at hw
  · simp only [hp, if_false] at hw ⊢
    exact walkPath_missing x _ _ _ _ _ hw

/-- A link that `os.Symlink` makes is there afterwards, and nothing else is lost. -/
theorem os.Symlink_ok {fs fs2 : FS} {oldname newname : Str}
    (h : os.Symlink fs oldname newname = Except.ok fs2) :
    fs.Le fs2 ∧ os.Lstat fs2 newname = Except.ok (Node.link oldname) := by
  unfold os.Symlink at h
  cases hn : namei fs false newname with
  | found p n => simp [hn] at h
  | err e => simp [hn] at h
  | missing d name =>
    simp only [hn] at h
    injection h with h
    subst h
    obtain ⟨hnone, hfound⟩ := namei_missing (Node.link oldname) hn
    exact ⟨FS.le_insert _ hnone, (os.Lstat_ok_iff _ _ _).2 ⟨_, hfound⟩⟩

theorem os.Mkdir_ok {fs fs2 : FS} {path : Str} (h : os.Mkdir fs path = Except.ok fs2) :
    fs.Le fs2 := by
  unfold os.Mkdir at h
  cases hn : namei fs false path with
  | found p n => simp [hn] at h
  | err e => simp [hn] at h
  | missing d name =>
    simp only [hn] at h
    injection h with h
    subst h
    exact FS.le_insert _ (namei_missing Node.dir hn).1

theorem os.mkdirAllAux_le : ∀ (depth : Nat) (fs : FS) (path : Str),
    fs.Le (os.mkdirAllAux depth fs path).1 := by
  intro depth
  induction depth with
  | zero => intro fs path; exact FS.Le.refl fs
  | succ d ih =>
    intro fs path
    unfold os.mkdirAllAux
    cases hs : os.Stat fs path with
    | ok nd => cases nd <;> exact FS.Le.refl fs
    | error e =>
      simp only
      have hpar : ∀ r : FS × Option Errno,
          (match os.parentOf path with
            | some par => os.mkdirAllAux d fs par
            | none => (fs, none)) = r → fs.Le r.1 := by
        intro r hr
        cases hpo : os.parentOf path with
        | none => rw [hpo] at hr; subst hr; exact FS.Le.refl fs
        | some par => rw [hpo] at hr; subst hr; exact ih fs par
      generalize hr : (match os.parentOf path with
            | some par => os.mkdirAllAux d fs par
            | none => (fs, none)) = r
      have hle := hpar r hr
      obtain ⟨fs1, e1⟩ := r
      cases e1 with
      | some e1 => exact hle
      | none =>
        simp only
        cases hm : os.Mkdir fs1 path with
        | ok fs2 => exact hle.trans (os.Mkdir_ok hm)
        | error e2 =>
          simp only
          split <;> exact hle

theorem os.MkdirAll_le (fs : FS) (path : Str) : fs.Le (os.MkdirAll fs path).1 :=
  os.mkdirAllAux_le _ fs path

theorem os.parentOf_length {path par : Str} (h : os.parentOf path = some par) :
    par.length < path.length := by
  unfold os.parentOf at h
  simp only at h
  split at h
  · rename_i hlen
    injection h with h
    subst h
    have h1 : (List.dropWhile (fun x => x != '/')
        (List.dropWhile (fun x => x == '/') path.reverse)).length ≤ path.length := by
      calc _ ≤ (List.dropWhile (fun x => x == '/') path.reverse).length :=
            (List.dropWhile_sublist _).length_le
        _ ≤ path.reverse.length := (List.dropWhile_sublist _).length_le
        _ = path.length := List.length_reverse _
    simp only [List.length_reverse, List.length_drop]
    omega
  · cases h

/-- The depth given to `mkdirAllAux` does not matter once it exceeds the length of
the path: the recursion over parents ends before the depth is used up. -/
theorem os.mkdirAllAux_depth : ∀ (d1 d2 : Nat) (fs : FS) (path : Str),
    path.length < d1 → path.length < d2 →
      os.mkdirAllAux d1 fs path = os.mkdirAllAux d2 fs path := by
  intro d1
  induction d1 with
  | zero => intro d2 fs path h1; omega
  | succ n ih =>
    intro d2 fs path h1 h2
    cases d2 with
    | zero => omega
    | succ m =>
      unfold os.mkdirAllAux
      cases hs : os.Stat fs path with
      | ok nd => cases nd <;> rfl
      | error e =>
        simp only
        cases hp : os.parentOf path with
        | none => rfl
        | some par =>
          simp only
          have hlt := os.parentOf_length hp
          rw [ih m fs par (by omega) (by omega)]

/-! ## Facts about strings -/

theorem intercalate_cons_cons (sep : Char) (x y : Str) (l : List Str) :
    [sep].intercalate (x :: y :: l) = x ++ sep :: [sep].intercalate (y :: l) := by
  simp [List.intercalate, List.intersperse]

theorem intercalate_snoc (sep : Char) (x : Str) :
    ∀ (l : List Str), l ≠ [] → [sep].intercalate (l ++ [x]) = [sep].intercalate l ++ sep :: x := by
  intro l
  induction l with
  | nil => intro h; exact absurd rfl h
  | cons a rest ih =>
    intro _
    cases rest with
    | nil => simp [List.intercalate, List.intersperse]
    | cons b rest2 =>
      rw [List.cons_append, List.cons_append, intercalate_cons_cons, ← List.cons_append,
        ih (by simp), intercalate_cons_cons]
      simp

theorem strings.Trim_eq_self {s : Str} {cut : Char}
    (hhead : ∀ c, s.head? = some c → c ≠ cut) (hlast : ∀ c, s.getLast? = some c → c ≠ cut) :
    strings.Trim s cut = s := by
  unfold strings.Trim
  have h1 : s.dropWhile (· == cut) = s := by
    cases s with
    | nil => rfl
    | cons c cs =>
      have := hhead c rfl
      exact List.dropWhile_cons_of_neg (by simpa using this)
  rw [h1]
  have h2 : s.reverse.dropWhile (· == cut) = s.reverse := by
    cases hr : s.reverse with
    | nil => rfl
    | cons c cs =>
      have hl : s.getLast? = some c := by
        rw [← List.head?_reverse, hr]; rfl
      have := hlast c hl
      exact List.dropWhile_cons_of_neg (by simpa using this)
  rw [h2, List.reverse_reverse]

theorem strings.TrimPrefix_append (pre s : Str) : strings.TrimPrefix (pre ++ s) pre = s := by
  unfold strings.TrimPrefix strings.HasPrefix
  have : pre.isPrefixOf (pre ++ s) = true := by
    rw [List.isPrefixOf_iff_prefix]; exact List.prefix_append _ _
  simp [this]

/-- The relative path of a manifest file splits back into its components. -/
theorem pathParts_eq (manifestsDir : Str) (parts : List Str) (hne : parts ≠ [])
    (hplain : ∀ c ∈ parts, c ≠ [] ∧ '/' ∉ c) :
    strings.Split
        (strings.Trim
          (strings.TrimPrefix (manifestsDir ++ '/' :: strings.Join parts '/') manifestsDir)
          '/') '/'
      = parts := by
  rw [strings.TrimPrefix_append]
  have hJ : strings.Trim (strings.Join parts '/') '/' = strings.Join parts '/' := by
    apply strings.Trim_eq_self
    · intro c hc
      cases parts with
      | nil => exact absurd rfl hne
      | cons p ps =>
        obtain ⟨hp0, hp1⟩ := hplain p (List.mem_cons_self _ _)
        cases p with
        | nil => exact absurd rfl hp0
        | cons a as =>
          have : c = a := by
            cases ps with
            | nil => simpa [strings.Join, List.intercalate, List.intersperse] using hc.symm
            | cons q qs =>
              simp only [strings.Join] at hc
              rw [intercalate_cons_cons] at hc
              simpa using hc.symm
          subst this
          intro h
          exact hp1 (by simp [h])
    · intro c hc
      obtain ⟨init, last, rfl⟩ : ∃ init last, parts = init ++ [last] :=
        ⟨parts.dropLast, parts.getLast hne, (List.dropLast_append_getLast hne).symm⟩
      obtain ⟨hl0, hl1⟩ := hplain last (by simp)
      have hc2 : last.getLast? = some c := by
        cases init with
        | nil =>
          simpa [strings.Join, List.intercalate, List.intersperse] using hc
        | cons i0 irest =>
          simp only [strings.Join] at hc
          rw [intercalate_snoc _ _ _ (by simp)] at hc
          rw [List.getLast?_append] at hc
          cases hlast : ('/' :: last).getLast? with
          | none => simp at hlast
          | some z =>
            rw [hlast] at hc
            have hzc : z = c := by simpa using hc
            have hlast2 : ('/' :: last).getLast? = last.getLast? := by
              cases last with
              | nil => exact absurd rfl hl0
              | cons a as => simp [List.getLast?_cons_cons]
            rw [← hlast2, hlast, hzc]
      intro h
      subst h
      exact hl1 (List.mem_of_getLast?_eq_some hc2)
  have hd : strings.Trim ('/' :: strings.Join parts '/') '/'
      = strings.Trim (strings.Join parts '/') '/' := by
    unfold strings.Trim
    simp [List.dropWhile]
  rw [hd, hJ]
  unfold strings.Split strings.Join
  exact List.splitOn_intercalate _ '/' (fun l hl => (hplain l hl).2) hne


/-! ## Facts about `processModel` -/

theorem additionalLoop_le (ollamaDir modelDir : Str) (verbose : Bool) :
    ∀ (entries : List (Str × Str)) (fs : FS),
      fs.Le (additionalLoop ollamaDir modelDir verbose entries fs).1 := by
  intro entries
  induction entries with
  | nil => intro fs; exact FS.Le.refl fs
  | cons e rest ih =>
    intro fs
    obtain ⟨blobHash, filename⟩ := e
    simp only [additionalLoop]
    cases hl : os.Lstat fs (filepath.Join [modelDir, filename]) with
    | ok n => exact ih fs
    | error e =>
      simp only
      cases hs : os.Symlink fs
          (filepath.Join [ollamaDir, "blobs".toList, strings.Replace blobHash ':' '-' 1])
          (filepath.Join [modelDir, filename]) with
      | error e2 => exact ih fs
      | ok fs1 => exact (os.Symlink_ok hs).1.trans (ih fs1)

theorem processModel_exists (ρ : RangeOrder) (model : ModelInfo)
    (ollamaDir ollamaProviderDir : Str) (dryRun verbose : Bool) (fs : FS) (n : Node)
    (h : os.Lstat fs (mainModelPathOf ollamaProviderDir model) = Except.ok n) :
    processModel ρ model ollamaDir ollamaProviderDir dryRun verbose fs
      = ⟨false, fs, [Line.skipped model.Name]⟩ := by
  unfold mainModelPathOf modelDirOf at h
  simp only [processModel, h]

theorem processModel_dry (ρ : RangeOrder) (model : ModelInfo)
    (ollamaDir ollamaProviderDir : Str) (verbose : Bool) (fs : FS) :
    (processModel ρ model ollamaDir ollamaProviderDir true verbose fs).fs = fs := by
  simp only [processModel]
  split <;> simp

theorem processModel_live (ρ : RangeOrder) (model : ModelInfo)
    (ollamaDir ollamaProviderDir : Str) (verbose : Bool) (fs : FS) (e : Errno)
    (h : os.Lstat fs (mainModelPathOf ollamaProviderDir model) = Except.error e) :
    processModel ρ model ollamaDir ollamaProviderDir false verbose fs =
      match os.MkdirAll fs (modelDirOf ollamaProviderDir model) with
      | (fs1, some e) =>
        ⟨false, fs1, [Line.creating model.Name, Line.errorDirectory model.Name e]⟩
      | (fs1, none) =>
        match os.Symlink fs1 (blobPathOf ollamaDir model.MainModelBlob)
            (mainModelPathOf ollamaProviderDir model) with
        | Except.error e =>
          ⟨false, fs1, [Line.creating model.Name, Line.errorSymlink model.Name e]⟩
        | Except.ok fs2 =>
          let r := additionalLoop ollamaDir (modelDirOf ollamaProviderDir model) verbose
            (ρ model.AdditionalBlobs) fs2
          ⟨true, r.1,
            Line.creating model.Name
              :: (if verbose then
                    [Line.mainModel (mainModelPathOf ollamaProviderDir model)
                      (blobPathOf ollamaDir model.MainModelBlob)]
                  else [])
              ++ r.2⟩ := by
  unfold mainModelPathOf modelDirOf at h
  simp only [processModel, h, mainModelPathOf, modelDirOf, blobPathOf, if_true]

theorem processModel_le (ρ : RangeOrder) (model : ModelInfo)
    (ollamaDir ollamaProviderDir : Str) (dryRun verbose : Bool) (fs : FS) :
    fs.Le (processModel ρ model ollamaDir ollamaProviderDir dryRun verbose fs).fs := by
  cases hl : os.Lstat fs (mainModelPathOf ollamaProviderDir model) with
  | ok n => rw [processModel_exists _ _ _ _ _ _ _ n hl]; exact FS.Le.refl fs
  | error e =>
    cases dryRun with
    | true => rw [processModel_dry]; exact FS.Le.refl fs
    | false =>
      rw [processModel_live _ _ _ _ _ _ e hl]
      have hm := os.MkdirAll_le fs (modelDirOf ollamaProviderDir model)
      generalize os.MkdirAll fs (modelDirOf ollamaProviderDir model) = r at hm
      obtain ⟨fs1, e1⟩ := r
      cases e1 with
      | some e1 => exact hm
      | none =>
        simp only
        cases hs : os.Symlink fs1 (blobPathOf ollamaDir model.MainModelBlob)
            (mainModelPathOf ollamaProviderDir model) with
        | error e2 => exact hm
        | ok fs2 =>
          exact hm.trans ((os.Symlink_ok hs).1.trans (additionalLoop_le _ _ _ _ _))

/-- A live `processModel` that prints no `ERROR` line leaves the primary link
path occupied. -/
theorem processModel_occupied (ρ : RangeOrder) (model : ModelInfo)
    (ollamaDir ollamaProviderDir : Str) (verbose : Bool) (fs : FS)
    (h : ∀ l ∈ (processModel ρ model ollamaDir ollamaProviderDir false verbose fs).out,
      l.isError = false) :
    ∃ n, os.Lstat (processModel ρ model ollamaDir ollamaProviderDir false verbose fs).fs
      (mainModelPathOf ollamaProviderDir model) = Except.ok n := by
  cases hl : os.Lstat fs (mainModelPathOf ollamaProviderDir model) with
  | ok n => rw [processModel_exists _ _ _ _ _ _ _ n hl]; exact ⟨n, hl⟩
  | error e =>
    rw [processModel_live _ _ _ _ _ _ e hl] at h ⊢
    generalize os.MkdirAll fs (modelDirOf ollamaProviderDir model) = r at h ⊢
    obtain ⟨fs1, e1⟩ := r
    cases e1 with
    | some e1 =>
      have := h (Line.errorDirectory model.Name e1) (by simp)
      simp [Line.isError] at this
    | none =>
      simp only at h ⊢
      cases hs : os.Symlink fs1 (blobPathOf ollamaDir model.MainModelBlob)
          (mainModelPathOf ollamaProviderDir model) with
      | error e2 =>
        rw [hs] at h
        have := h (Line.errorSymlink model.Name e2) (by simp)
        simp [Line.isError] at this
      | ok fs2 =>
        exact ⟨_, os.Lstat_mono (additionalLoop_le _ _ _ _ _) (os.Symlink_ok hs).2⟩

/-! ## Facts about the loop over the models -/

theorem processModels_le (ρ : RangeOrder) (ollamaDir ollamaProviderDir : Str)
    (dryRun verbose : Bool) :
    ∀ (models : List ModelInfo) (t : Tally),
      t.fs.Le (processModels ρ ollamaDir ollamaProviderDir dryRun verbose models t).fs := by
  intro models
  induction models with
  | nil => intro t; exact FS.Le.refl _
  | cons m rest ih =>
    intro t
    simp only [processModels]
    refine FS.Le.trans ?_ (ih _)
    have := processModel_le ρ m ollamaDir ollamaProviderDir dryRun verbose t.fs
    split <;> exact this

theorem processModels_out (ρ : RangeOrder) (ollamaDir ollamaProviderDir : Str)
    (dryRun verbose : Bool) :
    ∀ (models : List ModelInfo) (t : Tally),
      ∃ suffix, (processModels ρ ollamaDir ollamaProviderDir dryRun verbose models t).out
        = t.out ++ suffix := by
  intro models
  induction models with
  | nil => intro t; exact ⟨[], by simp [processModels]⟩
  | cons m rest ih =>
    intro t
    simp only [processModels]
    split
    · obtain ⟨s, hs⟩ := ih ⟨t.created + 1, t.skipped,
        (processModel ρ m ollamaDir ollamaProviderDir dryRun verbose t.fs).fs,
        t.out ++ (processModel ρ m ollamaDir ollamaProviderDir dryRun verbose t.fs).out⟩
      exact ⟨_, by rw [hs, List.append_assoc]⟩
    · obtain ⟨s, hs⟩ := ih ⟨t.created, t.skipped + 1,
        (processModel ρ m ollamaDir ollamaProviderDir dryRun verbose t.fs).fs,
        t.out ++ (processModel ρ m ollamaDir ollamaProviderDir dryRun verbose t.fs).out⟩
      exact ⟨_, by rw [hs, List.append_assoc]⟩

theorem processModels_dry (ρ : RangeOrder) (ollamaDir ollamaProviderDir : Str)
    (verbose : Bool) :
    ∀ (models : List ModelInfo) (t : Tally),
      (processModels ρ ollamaDir ollamaProviderDir true verbose models t).fs = t.fs := by
  intro models
  induction models with
  | nil => intro t; rfl
  | cons m rest ih =>
    intro t
    simp only [processModels]
    rw [ih]
    have := processModel_dry ρ m ollamaDir ollamaProviderDir verbose t.fs
    split <;> exact this

/-- After a live pass that prints no `ERROR` line every model's primary link path
is occupied. -/
theorem processModels_occupied (ρ : RangeOrder) (ollamaDir ollamaProviderDir : Str)
    (verbose : Bool) :
    ∀ (models : List ModelInfo) (t : Tally),
      (∀ l ∈ (processModels ρ ollamaDir ollamaProviderDir false verbose models t).out,
        l.isError = false) →
      ∀ m ∈ models, ∃ n,
        os.Lstat (processModels ρ ollamaDir ollamaProviderDir false verbose models t).fs
          (mainModelPathOf ollamaProviderDir m) = Except.ok n := by
  intro models
  induction models with
  | nil => intro t _ m hm; cases hm
  | cons m0 rest ih =>
    intro t h m hm
    simp only [processModels] at h ⊢
    generalize hr : processModel ρ m0 ollamaDir ollamaProviderDir false verbose t.fs = r
      at h ⊢
    generalize ht : (if r.result = true then
        (⟨t.created + 1, t.skipped, r.fs, t.out ++ r.out⟩ : Tally)
        else ⟨t.created, t.skipped + 1, r.fs, t.out ++ r.out⟩) = t1 at h ⊢
    have hfs : t1.fs = r.fs := by subst ht; split <;> rfl
    have hout : t1.out = t.out ++ r.out := by subst ht; split <;> rfl
    rcases List.mem_cons.1 hm with rfl | hmem
    · obtain ⟨suffix, hs⟩ := processModels_out ρ ollamaDir ollamaProviderDir false verbose
        rest t1
      have hr_clean : ∀ l ∈ r.out, l.isError = false := by
        intro l hl
        apply h
        rw [hs, hout]
        simp [hl]
      rw [← hr] at hr_clean
      obtain ⟨n, hn⟩ := processModel_occupied ρ m ollamaDir ollamaProviderDir verbose t.fs
        hr_clean
      rw [hr, ← hfs] at hn
      exact ⟨n, os.Lstat_mono (processModels_le _ _ _ _ _ _ _) hn⟩
    · exact ih t1 h m hmem

/-- A pass over models whose primary link paths are all occupied skips them all. -/
theorem processModels_all_skipped (ρ : RangeOrder) (ollamaDir ollamaProviderDir : Str)
    (dryRun verbose : Bool) (fs : FS) :
    ∀ (models : List ModelInfo) (created skipped : Nat) (out : List Line),
      (∀ m ∈ models, ∃ n,
        os.Lstat fs (mainModelPathOf ollamaProviderDir m) = Except.ok n) →
      processModels ρ ollamaDir ollamaProviderDir dryRun verbose models
          ⟨created, skipped, fs, out⟩ =
        ⟨created, skipped + models.length, fs,
          out ++ models.map (fun m => Line.skipped m.Name)⟩ := by
  intro models
  induction models with
  | nil => intro c s out _; simp [processModels]
  | cons m rest ih =>
    intro c s out h
    obtain ⟨n, hn⟩ := h m (List.mem_cons_self _ _)
    simp only [processModels]
    rw [processModel_exists ρ m ollamaDir ollamaProviderDir dryRun verbose fs n hn]
    simp only [Bool.false_eq_true, if_false]
    rw [ih _ _ _ (fun m1 hm1 => h m1 (List.mem_cons_of_mem _ hm1))]
    simp [Nat.add_assoc, Nat.add_comm 1]

/-- After a live pass without `ERROR` line, a second live pass skips every model. -/
theorem processModels_second_pass (ρ1 ρ2 : RangeOrder) (ollamaDir ollamaProviderDir : Str)
    (verbose1 verbose2 : Bool) (models : List ModelInfo) (fs : FS)
    (hclean : ∀ l ∈ (processModels ρ1 ollamaDir ollamaProviderDir false verbose1 models
      ⟨0, 0, fs, []⟩).out, l.isError = false) :
    processModels ρ2 ollamaDir ollamaProviderDir false verbose2 models
        ⟨0, 0, (processModels ρ1 ollamaDir ollamaProviderDir false verbose1 models
          ⟨0, 0, fs, []⟩).fs, []⟩
      = ⟨0, models.length,
          (processModels ρ1 ollamaDir ollamaProviderDir false verbose1 models
            ⟨0, 0, fs, []⟩).fs,
          models.map (fun m => Line.skipped m.Name)⟩ := by
  have hocc := processModels_occupied ρ1 ollamaDir ollamaProviderDir verbose1 models
    ⟨0, 0, fs, []⟩ hclean
  have := processModels_all_skipped ρ2 ollamaDir ollamaProviderDir false verbose2 _ models
    0 0 [] hocc
  simpa using this

/-! ## Facts about discovery -/

theorem splitOn_no_sep (sep : Char) : ∀ (xs : Str), ∀ l ∈ xs.splitOn sep, sep ∉ l := by
  intro xs
  induction xs with
  | nil => intro l hl; simp [List.splitOn_nil] at hl; simp [hl]
  | cons x rest ih =>
    intro l hl
    simp only [List.splitOn] at hl ih
    rw [List.splitOnP_cons] at hl
    by_cases hx : (x == sep) = true
    · rw [if_pos hx] at hl
      rcases List.mem_cons.1 hl with rfl | hl
      · simp
      · exact ih l hl
    · rw [if_neg hx] at hl
      cases hs : List.splitOnP (fun c => c == sep) rest with
      | nil => exact absurd hs (List.splitOnP_ne_nil _ _)
      | cons h t =>
        rw [hs] at hl ih
        simp only [List.modifyHead, List.mem_cons] at hl
        rcases hl with hl | hl
        · rw [hl]
          intro hmem
          rcases List.mem_cons.1 hmem with heq | hmem
          · exact hx (by simp [heq])
          · exact ih h (List.mem_cons_self _ _) hmem
        · exact ih l (List.mem_cons_of_mem _ hl)

theorem scanLayers_name (fullModelName : Str) :
    ∀ (layers : List Blob) (mi : ModelInfo),
      (scanLayers fullModelName layers mi).Name = mi.Name := by
  intro layers
  induction layers with
  | nil => intro mi; rfl
  | cons l rest ih =>
    intro mi
    simp only [scanLayers]
    split
    · rw [ih]
    · split <;> rw [ih]

theorem scanLayers_main (fullModelName : Str) :
    ∀ (layers : List Blob) (mi : ModelInfo),
      (scanLayers fullModelName layers mi).MainModelBlob
        = (lastModelDigest layers).getD mi.MainModelBlob := by
  intro layers
  induction layers with
  | nil => intro mi; rfl
  | cons l rest ih =>
    intro mi
    simp only [scanLayers, lastModelDigest]
    by_cases h1 : l.MediaType = mediaTypeModel
    · simp only [h1, if_true]
      rw [ih]
      cases lastModelDigest rest <;> rfl
    · simp only [h1, if_false]
      by_cases h2 : l.MediaType = mediaTypeProjector
      · simp only [h2, if_true]
        rw [ih]
        cases lastModelDigest rest <;> rfl
      · simp only [h2, if_false]
        rw [ih]
        cases lastModelDigest rest <;> rfl

theorem lastModelDigest_none {layers : List Blob}
    (h : ∀ l ∈ layers, l.MediaType ≠ mediaTypeModel) : lastModelDigest layers = none := by
  induction layers with
  | nil => rfl
  | cons l rest ih =>
    simp only [lastModelDigest]
    rw [ih (fun l1 h1 => h l1 (List.mem_cons_of_mem _ h1))]
    simp [h l (List.mem_cons_self _ _)]

theorem lastModelDigest_some {layers : List Blob} {d : Str}
    (h : lastModelDigest layers = some d) :
    ∃ l ∈ layers, l.MediaType = mediaTypeModel ∧ l.Digest = d := by
  induction layers with
  | nil => simp [lastModelDigest] at h
  | cons l rest ih =>
    simp only [lastModelDigest] at h
    cases hr : lastModelDigest rest with
    | some d1 =>
      rw [hr] at h
      injection h with h
      subst h
      obtain ⟨l1, hl1, h1⟩ := ih hr
      exact ⟨l1, List.mem_cons_of_mem _ hl1, h1⟩
    | none =>
      rw [hr] at h
      by_cases h1 : l.MediaType = mediaTypeModel
      · simp only [h1, if_true] at h
        injection h with h
        exact ⟨l, List.mem_cons_self _ _, h1, h⟩
      · simp [h1] at h

theorem Discovery.warn_models (acc : Discovery) (verbose : Bool) (line : Line) :
    (acc.warn verbose line).models = acc.models := by
  unfold Discovery.warn
  split <;> rfl

theorem walkFn_err (manifestsDir : Str) (verbose : Bool) (path : Str)
    (info : Option FileInfo) (err : Option WalkError) (content : FileContent)
    (acc : Discovery) :
    (walkFn manifestsDir verbose path info err content acc).2 = err := by
  unfold walkFn
  cases err with
  | some e => rfl
  | none =>
    cases info with
    | none => rfl
    | some info =>
      simp only
      split
      · rfl
      · cases content with
        | readError => rfl
        | invalid => rfl
        | manifest m =>
          simp only
          split
          · rfl
          · split <;> rfl

theorem walkFn_models (manifestsDir : Str) (verbose : Bool) (path : Str)
    (info : Option FileInfo) (err : Option WalkError) (content : FileContent)
    (acc : Discovery) :
    (walkFn manifestsDir verbose path info err content acc).1.models = acc.models ∨
    ∃ m mi, content = FileContent.manifest m ∧ err = none ∧
      (∃ name, info = some ⟨name, false⟩) ∧ Produced m mi ∧
      (walkFn manifestsDir verbose path info err content acc).1.models
        = acc.models ++ [mi] := by
  unfold walkFn
  cases err with
  | some e => exact Or.inl rfl
  | none =>
    cases info with
    | none => exact Or.inl rfl
    | some info =>
      simp only
      split
      · exact Or.inl rfl
      · rename_i hskip
        cases content with
        | readError => exact Or.inl (Discovery.warn_models _ _ _)
        | invalid => exact Or.inl (Discovery.warn_models _ _ _)
        | manifest m =>
          simp only
          split
          · exact Or.inl (Discovery.warn_models _ _ _)
          · split
            · exact Or.inl (Discovery.warn_models _ _ _)
            · rename_i hlen hmain
              refine Or.inr ⟨m, _, rfl, ?_, ⟨info.Name, ?_⟩, ⟨_, _, ?_, ?_, rfl, hmain⟩, rfl⟩
              · trivial
              · obtain ⟨nm, isDir⟩ := info
                simp only [Bool.or_eq_true, not_or] at hskip
                simp only [FileInfo.mk.injEq, true_and]
                simpa using hskip.1
              · rw [List.getD_eq_getElem?_getD]
                cases hget : (strings.Split (strings.Trim (strings.TrimPrefix path manifestsDir)
                    '/') '/')[(strings.Split (strings.Trim
                      (strings.TrimPrefix path manifestsDir) '/') '/').length - 2]? with
                | none => simp
                | some x =>
                  simp only [Option.getD_some]
                  exact splitOn_no_sep '/' _ x (List.getElem?_mem hget)
              · rw [List.getD_eq_getElem?_getD]
                cases hget : (strings.Split (strings.Trim (strings.TrimPrefix path manifestsDir)
                    '/') '/')[(strings.Split (strings.Trim
                      (strings.TrimPrefix path manifestsDir) '/') '/').length - 1]? with
                | none => simp
                | some x =>
                  simp only [Option.getD_some]
                  exact splitOn_no_sep '/' _ x (List.getElem?_mem hget)

mutual
theorem walk_err (manifestsDir : Str) (verbose : Bool) :
    ∀ (node : WalkNode) (path name : Str) (acc : Discovery),
      ((walk manifestsDir verbose path name node acc).2 = none ↔ node.walkable = true) ∧
      (walk manifestsDir verbose path name node acc).2 ≠ some WalkError.SkipDir ∧
      (walk manifestsDir verbose path name node acc).2 ≠ some WalkError.SkipAll
  | WalkNode.file content, path, name, acc => by
    simp only [walk, walkFn_err, WalkNode.walkable]
    simp
  | WalkNode.dir none, path, name, acc => by
    simp only [walk, walkFn_err, WalkNode.walkable]
    simp
  | WalkNode.dir (some names), path, name, acc => by
    simp only [walk, WalkNode.walkable]
    have hfn := walkFn_err manifestsDir verbose path (some ⟨name, true⟩) none noContent acc
    generalize walkFn manifestsDir verbose path (some ⟨name, true⟩) none noContent acc = r
      at hfn
    obtain ⟨acc1, e1⟩ := r
    simp only at hfn
    subst hfn
    exact walkNames_err manifestsDir verbose names path acc1
theorem walkNames_err (manifestsDir : Str) (verbose : Bool) :
    ∀ (names : WalkEntries) (path : Str) (acc : Discovery),
      ((walkNames manifestsDir verbose path names acc).2 = none ↔ names.walkable = true) ∧
      (walkNames manifestsDir verbose path names acc).2 ≠ some WalkError.SkipDir ∧
      (walkNames manifestsDir verbose path names acc).2 ≠ some WalkError.SkipAll
  | WalkEntries.nil, path, acc => by
    simp [walkNames, WalkEntries.walkable]
  | WalkEntries.cons name none rest, path, acc => by
    simp only [walkNames, WalkEntries.walkable]
    have hfn := walkFn_err manifestsDir verbose (filepath.Join [path, name]) none
      (some (WalkError.lstat (filepath.Join [path, name]))) noContent acc
    generalize walkFn manifestsDir verbose (filepath.Join [path, name]) none
      (some (WalkError.lstat (filepath.Join [path, name]))) noContent acc = r at hfn
    obtain ⟨acc1, e1⟩ := r
    simp only at hfn
    subst hfn
    simp
  | WalkEntries.cons name (some node) rest, path, acc => by
    simp only [walkNames, WalkEntries.walkable]
    have hw := walk_err manifestsDir verbose node (filepath.Join [path, name]) name acc
    generalize walk manifestsDir verbose (filepath.Join [path, name]) name node acc = r
      at hw
    obtain ⟨acc1, e1⟩ := r
    cases e1 with
    | none =>
      simp only at hw ⊢
      have hrest := walkNames_err manifestsDir verbose rest path acc1
      simp only [hw.1.1 trivial, Bool.true_and]
      exact hrest
    | some e =>
      simp only at hw ⊢
      have hne : node.walkable ≠ true := fun hwk => by
        have := hw.1.2 hwk
        cases this
      have h1 : e ≠ WalkError.SkipDir := fun h => hw.2.1 (by rw [h])
      have h2 : e ≠ WalkError.SkipAll := fun h => hw.2.2 (by rw [h])
      simp only [ne_eq, h1, not_false_eq_true, or_true, h2, and_self, if_true]
      simp only [Bool.not_eq_true] at hne
      simp [hne, h1, h2]
end

mutual
theorem walk_models (manifestsDir : Str) (verbose : Bool) :
    ∀ (node : WalkNode) (path name : Str) (acc : Discovery) (mi : ModelInfo),
      mi ∈ (walk manifestsDir verbose path name node acc).1.models →
      mi ∈ acc.models ∨ ∃ m ∈ node.manifests, Produced m mi
  | WalkNode.file content, path, name, acc, mi => by
    intro h
    simp only [walk] at h
    rcases walkFn_models manifestsDir verbose path (some ⟨name, false⟩) none content acc
      with heq | ⟨m, mi1, hc, _, _, hprod, heq⟩
    · rw [heq] at h; exact Or.inl h
    · rw [heq] at h
      rcases List.mem_append.1 h with h | h
      · exact Or.inl h
      · simp only [List.mem_singleton] at h
        subst h; subst hc
        exact Or.inr ⟨m, by simp [WalkNode.manifests], hprod⟩
  | WalkNode.dir none, path, name, acc, mi => by
    intro h
    simp only [walk] at h
    rcases walkFn_models manifestsDir verbose path (some ⟨name, true⟩)
        (some (WalkError.readdir path)) noContent acc
      with heq | ⟨m, mi1, _, herr, _⟩
    · rw [heq] at h; exact Or.inl h
    · cases herr
  | WalkNode.dir (some names), path, name, acc, mi => by
    intro h
    simp only [walk] at h
    have hfn := walkFn_models manifestsDir verbose path (some ⟨name, true⟩) none noContent acc
    have hacc : (walkFn manifestsDir verbose path (some ⟨name, true⟩) none noContent
        acc).1.models = acc.models := by
      rcases hfn with heq | ⟨m, mi1, hc, _⟩
      · exact heq
      · cases hc
    generalize walkFn manifestsDir verbose path (some ⟨name, true⟩) none noContent acc = r
      at h hacc
    obtain ⟨acc1, e1⟩ := r
    cases e1 with
    | some e => simp only at h hacc; rw [hacc] at h; exact Or.inl h
    | none =>
      simp only at h hacc
      rcases walkNames_models manifestsDir verbose names path acc1 mi h with h1 | h1
      · rw [hacc] at h1; exact Or.inl h1
      · simpa [WalkNode.manifests] using Or.inr h1
theorem walkNames_models (manifestsDir : Str) (verbose : Bool) :
    ∀ (names : WalkEntries) (path : Str) (acc : Discovery) (mi : ModelInfo),
      mi ∈ (walkNames manifestsDir verbose path names acc).1.models →
      mi ∈ acc.models ∨ ∃ m ∈ names.manifests, Produced m mi
  | WalkEntries.nil, path, acc, mi => by
    intro h
    simp only [walkNames] at h
    exact Or.inl h
  | WalkEntries.cons name none rest, path, acc, mi => by
    intro h
    simp only [walkNames] at h
    have hfn := walkFn_models manifestsDir verbose (filepath.Join [path, name]) none
      (some (WalkError.lstat (filepath.Join [path, name]))) noContent acc
    have hacc : (walkFn manifestsDir verbose (filepath.Join [path, name]) none
        (some (WalkError.lstat (filepath.Join [path, name]))) noContent acc).1.models
        = acc.models := by
      rcases hfn with heq | ⟨m, mi1, hc, _⟩
      · exact heq
      · cases hc
    have herr := walkFn_err manifestsDir verbose (filepath.Join [path, name]) none
      (some (WalkError.lstat (filepath.Join [path, name]))) noContent acc
    generalize walkFn manifestsDir verbose (filepath.Join [path, name]) none
      (some (WalkError.lstat (filepath.Join [path, name]))) noContent acc = r
      at h hacc herr
    obtain ⟨acc1, e1⟩ := r
    simp only at herr hacc
    subst herr
    simp only [ne_eq, reduceCtorEq, not_false_eq_true, and_self, if_true] at h
    rw [hacc] at h
    exact Or.inl h
  | WalkEntries.cons name (some node) rest, path, acc, mi => by
    intro h
    simp only [walkNames] at h
    have hw := walk_models manifestsDir verbose node (filepath.Join [path, name]) name acc
    generalize walk manifestsDir verbose (filepath.Join [path, name]) name node acc = r
      at h hw
    obtain ⟨acc1, e1⟩ := r
    have hdone : mi ∈ acc1.models →
        mi ∈ acc.models ∨ ∃ m ∈ (WalkEntries.cons name (some node) rest).manifests,
          Produced m mi := by
      intro h1
      rcases hw mi h1 with h2 | ⟨m, hm, hp⟩
      · exact Or.inl h2
      · exact Or.inr ⟨m, by simp [WalkEntries.manifests, hm], hp⟩
    have hrest : mi ∈ (walkNames manifestsDir verbose path rest acc1).1.models →
        mi ∈ acc.models ∨ ∃ m ∈ (WalkEntries.cons name (some node) rest).manifests,
          Produced m mi := by
      intro h1
      rcases walkNames_models manifestsDir verbose rest path acc1 mi h1 with h2 | ⟨m, hm, hp⟩
      · exact hdone h2
      · exact Or.inr ⟨m, by simp [WalkEntries.manifests, hm], hp⟩
    cases e1 with
    | none => exact hrest h
    | some e =>
      simp only at h
      split at h
      · exact hdone h
      · exact hrest h
end

theorem discoverModels_models (ollamaDir : Str) (verbose : Bool)
    (manifests : Option WalkNode) (mi : ModelInfo)
    (h : mi ∈ (discoverModels ollamaDir verbose manifests).1) :
    ∃ m ∈ rootManifests manifests, Produced m mi := by
  unfold discoverModels Walk at h
  cases manifests with
  | none =>
    simp only at h
    have hfn := walkFn_models (filepath.Join [ollamaDir, "manifests".toList]) verbose
      (filepath.Join [ollamaDir, "manifests".toList]) none
      (some (WalkError.lstat (filepath.Join [ollamaDir, "manifests".toList]))) noContent
      ⟨[], []⟩
    have hacc : (walkFn (filepath.Join [ollamaDir, "manifests".toList]) verbose
      (filepath.Join [ollamaDir, "manifests".toList]) none
      (some (WalkError.lstat (filepath.Join [ollamaDir, "manifests".toList]))) noContent
      ⟨[], []⟩).1.models = [] := by
      rcases hfn with heq | ⟨m, mi1, hc, _⟩
      · exact heq
      · cases hc
    generalize walkFn (filepath.Join [ollamaDir, "manifests".toList]) verbose
      (filepath.Join [ollamaDir, "manifests".toList]) none
      (some (WalkError.lstat (filepath.Join [ollamaDir, "manifests".toList]))) noContent
      ⟨[], []⟩ = r at h hacc
    obtain ⟨acc1, e1⟩ := r
    simp only at hacc
    have : mi ∈ acc1.models := by
      cases e1 with
      | none => simpa using h
      | some e => cases e <;> simpa using h
    rw [hacc] at this
    cases this
  | some node =>
    simp only at h
    have hw := walk_models (filepath.Join [ollamaDir, "manifests".toList]) verbose node
      (filepath.Join [ollamaDir, "manifests".toList])
      (filepath.Base (filepath.Join [ollamaDir, "manifests".toList])) ⟨[], []⟩ mi
    generalize walk (filepath.Join [ollamaDir, "manifests".toList]) verbose
      (filepath.Join [ollamaDir, "manifests".toList])
      (filepath.Base (filepath.Join [ollamaDir, "manifests".toList])) node ⟨[], []⟩ = r
      at h hw
    obtain ⟨acc1, e1⟩ := r
    have : mi ∈ acc1.models := by
      cases e1 with
      | none => simpa using h
      | some e => cases e <;> simpa using h
    rcases hw this with h1 | h1
    · cases h1
    · exact h1

/-! ## Facts about `filepath.Join` -/

theorem splitOn_append_sep (sep : Char) (b : Str) :
    ∀ a : Str, (a ++ sep :: b).splitOn sep = a.splitOn sep ++ b.splitOn sep := by
  intro a
  induction a with
  | nil =>
    simp only [List.nil_append, List.splitOn, List.splitOnP_nil]
    rw [List.splitOnP_cons]
    simp
  | cons x rest ih =>
    simp only [List.splitOn] at ih ⊢
    rw [List.cons_append, List.splitOnP_cons, List.splitOnP_cons, ih]
    by_cases hx : (x == sep) = true
    · simp [hx]
    · simp only [hx, if_false]
      cases hs : List.splitOnP (fun c => c == sep) rest with
      | nil => exact absurd hs (List.splitOnP_ne_nil _ _)
      | cons h t => simp [List.modifyHead]

theorem splitOn_plain {x : Str} (hx : '/' ∉ x) : x.splitOn '/' = [x] := by
  unfold List.splitOn
  apply List.splitOnP_eq_single
  intro c hc h
  have : c = '/' := by simpa using h
  exact hx (this ▸ hc)

theorem filepath.cleanElems_append (rooted : Bool) :
    ∀ (es fs : List Str) (out : List Str),
      filepath.cleanElems rooted out (es ++ fs)
        = filepath.cleanElems rooted (filepath.cleanElems rooted out es) fs := by
  intro es
  induction es with
  | nil => intro fs out; rfl
  | cons e rest ih =>
    intro fs out
    simp only [List.cons_append, filepath.cleanElems]
    split
    · exact ih _ _
    · split
      · cases out with
        | nil =>
          simp only
          split <;> exact ih _ _
        | cons top out1 =>
          simp only
          split <;> exact ih _ _
      · exact ih _ _

theorem filepath.cleanElems_mem (rooted : Bool) :
    ∀ (es : List Str) (out : List Str), (∀ e ∈ es, '/' ∉ e) →
      ∀ l ∈ filepath.cleanElems rooted out es, l ∈ out ∨ (l ≠ [] ∧ '/' ∉ l) := by
  intro es
  induction es with
  | nil => intro out _ l hl; exact Or.inl hl
  | cons e rest ih =>
    intro out hes l hl
    have hrest : ∀ e ∈ rest, '/' ∉ e := fun e1 h1 => hes e1 (List.mem_cons_of_mem _ h1)
    have hdd : (['.', '.'] : Str) ≠ [] ∧ '/' ∉ (['.', '.'] : Str) := by decide
    simp only [filepath.cleanElems] at hl
    split at hl
    · exact ih out hrest l hl
    · rename_i hne
      split at hl
      · cases out with
        | nil =>
          simp only at hl
          split at hl
          · exact ih _ hrest l hl
          · rcases ih _ hrest l hl with h | h
            · simp only [List.mem_singleton] at h
              exact Or.inr (h ▸ hdd)
            · exact Or.inr h
        | cons top out1 =>
          simp only at hl
          split at hl
          · rcases ih _ hrest l hl with h | h
            · rcases List.mem_cons.1 h with h | h
              · exact Or.inr (h ▸ hdd)
              · exact Or.inl h
            · exact Or.inr h
          · rcases ih _ hrest l hl with h | h
            · exact Or.inl (List.mem_cons_of_mem _ h)
            · exact Or.inr h
      · rcases ih _ hrest l hl with h | h
        · rcases List.mem_cons.1 h with h | h
          · refine Or.inr ⟨?_, h ▸ hes e (List.mem_cons_self _ _)⟩
            rw [h]
            intro h0
            exact hne (Or.inl h0)
          · exact Or.inl h
        · exact Or.inr h

theorem filepath.cleanElems_plain (rooted : Bool) (out : List Str) {x : Str}
    (hx : PlainName x) : filepath.cleanElems rooted out [x] = x :: out := by
  obtain ⟨h0, _, h1, h2⟩ := hx
  simp [filepath.cleanElems, h0, h1, h2]

theorem components_intercalate (ls : List Str) (h : ∀ l ∈ ls, l ≠ [] ∧ '/' ∉ l)
    (hne : ls ≠ []) :
    components (strings.Join ls '/') = ls ∧ components ('/' :: strings.Join ls '/') = ls := by
  have hs : (strings.Join ls '/').splitOn '/' = ls :=
    List.splitOn_intercalate _ '/' (fun l hl => (h l hl).2) hne
  have hf : ls.filter (fun c => decide (c ≠ [])) = ls := by
    rw [List.filter_eq_self]
    intro l hl
    simpa using (h l hl).1
  constructor
  · unfold components
    rw [hs, hf]
  · unfold components
    have : ('/' :: strings.Join ls '/').splitOn '/' = [] :: ls := by
      have := splitOn_append_sep '/' (strings.Join ls '/') []
      simpa [hs, List.splitOn_nil] using this
    rw [this, List.filter_cons_of_neg (by simp), hf]

theorem head_intercalate (ls : List Str) (h : ∀ l ∈ ls, l ≠ [] ∧ '/' ∉ l) (hne : ls ≠ []) :
    (strings.Join ls '/').head? ≠ some '/' ∧ strings.Join ls '/' ≠ [] := by
  cases ls with
  | nil => exact absurd rfl hne
  | cons p ps =>
    obtain ⟨hp0, hp1⟩ := h p (List.mem_cons_self _ _)
    cases p with
    | nil => exact absurd rfl hp0
    | cons a as =>
      have ha : a ≠ '/' := fun ha => hp1 (by simp [ha])
      cases ps with
      | nil => simp [strings.Join, List.intercalate, List.intersperse, ha]
      | cons q qs =>
        simp only [strings.Join]
        rw [intercalate_cons_cons]
        simp [ha]

/-- How a path made by joining a plain name to a directory path is resolved: from
a start and over leading components that depend on the directory path only,
followed by the name. -/
theorem namei_join (dir : Str) (x : Str) (hx : PlainName x) (fs : FS) (follow : Bool) :
    namei fs follow (filepath.Join [dir, x])
      = walkPath fs follow pathBudget (if joinRooted dir then [] else fs.cwd)
          (joinLead dir ++ [x]) := by
  have hx0 := hx.1
  have hx1 := hx.2.1
  by_cases hdir : dir = []
  · subst hdir
    have hhead : x.head? ≠ some '/' := by
      cases x with
      | nil => simp
      | cons a as =>
        have : a ≠ '/' := fun ha => hx1 (by simp [ha])
        simpa using this
    have hjoin : filepath.Join [[], x] = x := by
      have hdw : List.dropWhile (fun e : Str => decide (e = [])) [[], x] = [x] := by
        simp [List.dropWhile, hx0]
      unfold filepath.Join
      rw [hdw]
      simp only [strings.Join, List.intercalate, List.intersperse, List.flatten,
        List.append_nil, filepath.Clean, splitOn_plain hx1,
        filepath.cleanElems_plain _ _ hx]
      simp [hhead]
    have hlead : joinLead [] = [] := by decide
    have hroot : joinRooted [] = false := by decide
    rw [hjoin, hlead, hroot]
    unfold namei
    simp only [hx0, if_false, hhead, Bool.false_eq_true]
    have : components x = [x] := by
      unfold components
      rw [splitOn_plain hx1]
      simp [hx0]
    rw [this]
    simp
  · have hdw : List.dropWhile (fun e : Str => decide (e = [])) [dir, x] = [dir, x] := by
      simp [List.dropWhile, hdir]
    have hsj : strings.Join [dir, x] '/' = dir ++ '/' :: x := by
      simp [strings.Join, List.intercalate, List.intersperse]
    have hhead : (dir ++ '/' :: x).head? = dir.head? := by
      cases dir with
      | nil => exact absurd rfl hdir
      | cons a as => rfl
    unfold joinLead joinRooted
    generalize hS : filepath.cleanElems (decide (dir.head? = some '/')) []
      (dir.splitOn '/') = S
    have hSmem : ∀ l ∈ S, l ≠ [] ∧ '/' ∉ l := by
      intro l hl
      rw [← hS] at hl
      rcases filepath.cleanElems_mem _ _ [] (fun e he => splitOn_no_sep '/' dir e he) l hl
        with h | h
      · cases h
      · exact h
    have hls : ∀ l ∈ S.reverse ++ [x], l ≠ [] ∧ '/' ∉ l := by
      intro l hl
      rcases List.mem_append.1 hl with h | h
      · exact hSmem l (List.mem_reverse.1 h)
      · simp only [List.mem_singleton] at h
        exact h ▸ ⟨hx0, hx1⟩
    have hclean : (filepath.cleanElems (decide (dir.head? = some '/')) []
        ((dir ++ '/' :: x).splitOn '/')).reverse = S.reverse ++ [x] := by
      rw [splitOn_append_sep, splitOn_plain hx1, filepath.cleanElems_append, hS,
        filepath.cleanElems_plain _ _ hx]
      simp
    have hjoin : filepath.Join [dir, x]
        = if dir.head? = some '/' then '/' :: strings.Join (S.reverse ++ [x]) '/'
          else strings.Join (S.reverse ++ [x]) '/' := by
      unfold filepath.Join
      rw [hdw]
      simp only [hsj, filepath.Clean, hhead, hclean]
      by_cases hr : dir.head? = some '/'
      · simp [hr]
      · simp [hr]
    obtain ⟨hc1, hc2⟩ := components_intercalate (S.reverse ++ [x]) hls (by simp)
    obtain ⟨hh1, hh2⟩ := head_intercalate (S.reverse ++ [x]) hls (by simp)
    rw [hjoin]
    unfold namei
    by_cases hr : dir.head? = some '/'
    · simp only [hr, if_true, decide_True]
      simp [hc2]
    · simp only [hr, if_false, decide_False, hh2, hh1, Bool.false_eq_true]
      simp [hc1]

/-! ## Facts about links that share a directory -/

/-- Two paths that differ in their last component only, neither `.` nor `..`, are
resolved alike up to the last component. -/
theorem walkPath_sibling {fs fs2 : FS} (hle : fs.Le fs2) {g f : Str}
    (hg : g ≠ ['.'] ∧ g ≠ ['.', '.']) (hf : f ≠ ['.'] ∧ f ≠ ['.', '.']) :
    ∀ (budget : Nat) (cur : CPath) (lead : List Str) (d : CPath) (n : Str),
      walkPath fs false budget cur (lead ++ [g]) = Walked.missing d n →
      n = g ∧
        walkPath fs2 false budget cur (lead ++ [f]) =
          (match fs2.node (d ++ [f]) with
            | none => Walked.missing d f
            | some nd => Walked.found (d ++ [f]) nd) := by
  intro budget
  induction budget with
  | zero =>
    intro cur lead d n hw
    cases lead <;> simp [walkPath] at hw
  | succ b ih =>
    intro cur lead d n hw
    cases lead with
    | nil =>
      simp only [List.nil_append, walkPath, hg.1, hg.2, if_false] at hw
      simp only [List.nil_append, walkPath, hf.1, hf.2, if_false]
      cases hnode : fs.node (cur ++ [g]) with
      | none =>
        rw [hnode] at hw
        simp only [if_true] at hw
        injection hw with hd hn
        subst hd
        refine ⟨hn.symm, ?_⟩
        cases hn2 : fs2.node (cur ++ [f]) with
        | none => simp
        | some nd =>
          cases nd with
          | dir => simp [walkPath]
          | file => simp
          | link t => simp
      | some nd =>
        rw [hnode] at hw
        cases nd with
        | dir => simp [walkPath] at hw
        | file => simp at hw
        | link t => simp at hw
    | cons c rest =>
      have hne : ∀ z : Str, rest ++ [z] ≠ [] := by intro z; simp
      have e1 : ∀ z : Str, (c :: rest) ++ [z] = c :: (rest ++ [z]) := fun _ => rfl
      rw [e1] at hw ⊢
      simp only [walkPath] at hw ⊢
      by_cases h1 : c = ['.']
      · simp only [h1, if_true] at hw ⊢
        exact ih _ _ _ _ hw
      · by_cases h2 : c = ['.', '.']
        · simp only [h2, if_true] at hw ⊢
          simp only [show (['.', '.'] : Str) ≠ ['.'] by decide, if_false] at hw ⊢
          exact ih _ _ _ _ hw
        · simp only [h1, h2, if_false] at hw ⊢
          cases hnode : fs.node (cur ++ [c]) with
          | none =>
            rw [hnode] at hw
            simp [hne] at hw
          | some nd =>
            rw [hnode] at hw
            rw [hle.2 _ _ hnode]
            cases nd with
            | dir => exact ih _ _ _ _ hw
            | file => simp [hne] at hw
            | link t =>
              simp only [hne, false_and, if_false] at hw ⊢
              by_cases ht : t = []
              · simp [ht] at hw
              · simp only [ht, if_false] at hw ⊢
                rw [← List.append_assoc] at hw ⊢
                exact ih _ _ _ _ hw

theorem GoMap.mem_set {m : GoMap} {k v : Str} {e : Str × Str} (h : e ∈ m.set k v) :
    e ∈ m ∨ e = (k, v) := by
  induction m with
  | nil =>
    simp only [GoMap.set, List.mem_singleton] at h
    exact Or.inr h
  | cons a rest ih =>
    obtain ⟨k1, v1⟩ := a
    simp only [GoMap.set] at h
    split at h
    · rcases List.mem_cons.1 h with h | h
      · exact Or.inr h
      · exact Or.inl (List.mem_cons_of_mem _ h)
    · rcases List.mem_cons.1 h with h | h
      · exact Or.inl (h ▸ List.mem_cons_self _ _)
      · rcases ih h with h | h
        · exact Or.inl (List.mem_cons_of_mem _ h)
        · exact Or.inr h

theorem scanLayers_blobs (fullModelName : Str) :
    ∀ (layers : List Blob) (mi : ModelInfo),
      ∀ e ∈ (scanLayers fullModelName layers mi).AdditionalBlobs,
        e ∈ mi.AdditionalBlobs ∨ e.2 = fullModelName ++ "-projector.bin".toList := by
  intro layers
  induction layers with
  | nil => intro mi e he; exact Or.inl he
  | cons l rest ih =>
    intro mi e he
    simp only [scanLayers] at he
    split at he
    · have h := ih _ e he
      exact h
    · split at he
      · rcases ih _ e he with h | h
        · rcases GoMap.mem_set h with h | h
          · exact Or.inl h
          · exact Or.inr (by rw [h])
        · exact Or.inr h
      · exact ih _ e he

/-- The names of a discovered model: it has no separator, and every auxiliary blob is
given the file name `{Name}-projector.bin`. -/
theorem Produced.names {m : OllamaManifest} {mi : ModelInfo} (h : Produced m mi) :
    '/' ∉ mi.Name ∧ ∀ e ∈ mi.AdditionalBlobs, e.2 = mi.Name ++ "-projector.bin".toList := by
  obtain ⟨family, variant, hf, hv, heq, _⟩ := h
  have hname : mi.Name = family ++ ['-'] ++ variant := by rw [heq, scanLayers_name]
  constructor
  · rw [hname]
    simp only [List.mem_append, List.mem_singleton, not_or]
    exact ⟨⟨hf, by decide⟩, hv⟩
  · intro e he
    rw [heq] at he
    rcases scanLayers_blobs _ _ _ e he with h | h
    · cases h
    · rw [hname]; exact h

theorem plainName_append {name ext : Str} (hname : '/' ∉ name) (hext : '/' ∉ ext)
    (hlen : 3 ≤ ext.length) : PlainName (name ++ ext) := by
  refine ⟨?_, ?_, ?_, ?_⟩
  · intro h
    have := congrArg List.length h
    simp only [List.length_append, List.length_nil, List.length_cons] at this
    omega
  · simp only [List.mem_append, not_or]
    exact ⟨hname, hext⟩
  · intro h
    have := congrArg List.length h
    simp only [List.length_append, List.length_nil, List.length_cons] at this
    omega
  · intro h
    have := congrArg List.length h
    simp only [List.length_append, List.length_nil, List.length_cons] at this
    omega

theorem filepath.Clean_eq (dir : Str) :
    filepath.Clean dir =
      if dir.head? = some '/' then '/' :: strings.Join (joinLead dir) '/'
      else if joinLead dir = [] then ['.']
      else strings.Join (joinLead dir) '/' := by
  unfold filepath.Clean joinLead joinRooted
  by_cases hr : dir.head? = some '/' <;> simp [hr]

theorem filepath.Clean_append_plain (dir x : Str) (hdir : dir ≠ []) (hx : PlainName x) :
    filepath.Clean (dir ++ '/' :: x) =
      if dir.head? = some '/' then '/' :: strings.Join (joinLead dir ++ [x]) '/'
      else strings.Join (joinLead dir ++ [x]) '/' := by
  have hhead : (dir ++ '/' :: x).head? = dir.head? := by
    cases dir with
    | nil => exact absurd rfl hdir
    | cons a as => rfl
  have hlead : joinLead (dir ++ '/' :: x) = joinLead dir ++ [x] := by
    unfold joinLead joinRooted
    rw [hhead, splitOn_append_sep, splitOn_plain hx.2.1, filepath.cleanElems_append,
      filepath.cleanElems_plain _ _ hx]
    simp
  rw [filepath.Clean_eq, hhead, hlead]
  by_cases hr : dir.head? = some '/' <;> simp [hr]

/-- Joining a plain name to a clean path, other than `/` and `.`, appends a
separator and the name; the result is clean. -/
theorem filepath.Clean_fixed_append (dir x : Str) (hc : filepath.Clean dir = dir)
    (h1 : dir ≠ ['/']) (h2 : dir ≠ ['.']) (hx : PlainName x) :
    filepath.Clean (dir ++ '/' :: x) = dir ++ '/' :: x ∧
      filepath.Join [dir, x] = dir ++ '/' :: x := by
  have hdir : dir ≠ [] := by
    intro h
    rw [h] at hc
    exact absurd hc (by decide)
  have hL : joinLead dir ≠ [] := by
    intro hL
    rw [filepath.Clean_eq, hL] at hc
    by_cases hr : dir.head? = some '/'
    · simp only [hr, if_true] at hc
      exact h1 (hc ▸ by decide)
    · simp only [hr, if_false, if_true] at hc
      exact h2 hc.symm
  have hsnoc : strings.Join (joinLead dir ++ [x]) '/'
      = strings.Join (joinLead dir) '/' ++ '/' :: x := intercalate_snoc '/' x _ hL
  have hclean : filepath.Clean (dir ++ '/' :: x) = dir ++ '/' :: x := by
    rw [filepath.Clean_append_plain dir x hdir hx, hsnoc]
    rw [filepath.Clean_eq] at hc
    by_cases hr : dir.head? = some '/'
    · simp only [hr, if_true] at hc ⊢
      rw [← List.cons_append, hc]
    · simp only [hr, if_false, hL] at hc ⊢
      rw [hc]
  refine ⟨hclean, ?_⟩
  have hdw : List.dropWhile (fun e : Str => decide (e = [])) [dir, x] = [dir, x] := by
    simp [List.dropWhile, hdir]
  have hsj : strings.Join [dir, x] '/' = dir ++ '/' :: x := by
    simp [strings.Join, List.intercalate, List.intersperse]
  unfold filepath.Join
  rw [hdw]
  simp only [hsj, hclean]

/-- The primary link path, spelled out: `{providerRoot}/{Name}/{Name}.gguf`. -/
theorem mainModelPath_spelled (ollamaProviderDir name : Str)
    (hc : filepath.Clean ollamaProviderDir = ollamaProviderDir)
    (h1 : ollamaProviderDir ≠ ['/']) (h2 : ollamaProviderDir ≠ ['.'])
    (hname : PlainName name) :
    filepath.Join [filepath.Join [ollamaProviderDir, name], name ++ ".gguf".toList]
      = ollamaProviderDir ++ '/' :: name ++ '/' :: name ++ ".gguf".toList := by
  obtain ⟨hc1, hj1⟩ := filepath.Clean_fixed_append ollamaProviderDir name hc h1 h2 hname
  have hg : PlainName (name ++ ".gguf".toList) :=
    plainName_append hname.2.1 (by decide) (by decide)
  have hne1 : ollamaProviderDir ++ '/' :: name ≠ ['/'] := by
    intro h
    have := congrArg List.length h
    have := List.length_pos.2 hname.1
    simp only [List.length_append, List.length_cons, List.length_nil] at *
    omega
  have hne2 : ollamaProviderDir ++ '/' :: name ≠ ['.'] := by
    intro h
    have := congrArg List.length h
    have := List.length_pos.2 hname.1
    simp only [List.length_append, List.length_cons, List.length_nil] at *
    omega
  rw [hj1, (filepath.Clean_fixed_append _ _ hc1 hne1 hne2 hg).2]
  simp

/-- The blob path, spelled out: `{ollamaDir}/blobs/{file}`. -/
theorem blobPath_spelled (ollamaDir file : Str) (hc : filepath.Clean ollamaDir = ollamaDir)
    (h1 : ollamaDir ≠ ['/']) (h2 : ollamaDir ≠ ['.']) (hfile : PlainName file) :
    filepath.Join [ollamaDir, "blobs".toList, file]
      = ollamaDir ++ "/blobs/".toList ++ file := by
  have hb : PlainName "blobs".toList := by
    refine ⟨by decide, by decide, by decide, by decide⟩
  obtain ⟨hc1, _⟩ := filepath.Clean_fixed_append ollamaDir "blobs".toList hc h1 h2 hb
  have hdir : ollamaDir ≠ [] := by
    intro h
    rw [h] at hc
    exact absurd hc (by decide)
  have hne1 : ollamaDir ++ '/' :: "blobs".toList ≠ ['/'] := by
    intro h
    have := congrArg List.length h
    simp at this
  have hne2 : ollamaDir ++ '/' :: "blobs".toList ≠ ['.'] := by
    intro h
    have := congrArg List.length h
    simp at this
  have hdw : List.dropWhile (fun e : Str => decide (e = [])) [ollamaDir, "blobs".toList, file]
      = [ollamaDir, "blobs".toList, file] := by
    simp [List.dropWhile, hdir]
  have hsj : strings.Join [ollamaDir, "blobs".toList, file] '/'
      = (ollamaDir ++ '/' :: "blobs".toList) ++ '/' :: file := by
    simp [strings.Join, List.intercalate, List.intersperse]
  unfold filepath.Join
  rw [hdw]
  simp only [hsj, (filepath.Clean_fixed_append _ _ hc1 hne1 hne2 hfile).1]
  simp

/-! ## `filepath.Clean` is idempotent -/

theorem plainName_ne_dotdot {p : Str} (hp : PlainName p) : p ≠ ['.', '.'] := hp.2.2.2

theorem filepath.cleanElems_normal (rooted : Bool) :
    ∀ (es : List Str) (out : List Str), (∀ e ∈ es, '/' ∉ e) → NormalOut rooted out →
      NormalOut rooted (filepath.cleanElems rooted out es) := by
  intro es
  induction es with
  | nil => intro out _ h; exact h
  | cons e rest ih =>
    intro out hes hout
    have hrest : ∀ e ∈ rest, '/' ∉ e := fun e1 h1 => hes e1 (List.mem_cons_of_mem _ h1)
    obtain ⟨names, k, hk, hnames, hr⟩ := hout
    simp only [filepath.cleanElems]
    split
    · exact ih out hrest ⟨names, k, hk, hnames, hr⟩
    · rename_i hne
      simp only [not_or] at hne
      split
      · rename_i hdd
        cases names with
        | nil =>
          simp only [List.nil_append] at hk
          cases k with
          | zero =>
            simp only [List.replicate] at hk
            subst hk
            simp only
            split
            · exact ih _ hrest ⟨[], 0, rfl, by simp, fun _ => rfl⟩
            · rename_i hroot
              refine ih _ hrest ⟨[], 1, rfl, by simp, fun h => absurd h hroot⟩
          | succ k =>
            have hroot : rooted ≠ true := fun h => by have := hr h; omega
            subst hk
            simp only [List.replicate, if_true]
            exact ih _ hrest ⟨[], k + 2, rfl, by simp, fun h => absurd h hroot⟩
        | cons p ps =>
          subst hk
          have hp := hnames p (List.mem_cons_self _ _)
          simp only [List.cons_append, plainName_ne_dotdot hp, if_false]
          exact ih _ hrest
            ⟨ps, k, rfl, fun q hq => hnames q (List.mem_cons_of_mem _ hq), hr⟩
      · rename_i hdd
        subst hk
        refine ih _ hrest ⟨e :: names, k, rfl, ?_, hr⟩
        intro q hq
        rcases List.mem_cons.1 hq with h | h
        · rw [h]
          exact ⟨hne.1, hes e (List.mem_cons_self _ _), hne.2, hdd⟩
        · exact hnames q h

theorem filepath.cleanElems_replicate :
    ∀ k j : Nat, filepath.cleanElems false (List.replicate j ['.', '.'])
        (List.replicate k ['.', '.'])
      = List.replicate (k + j) ['.', '.'] := by
  intro k
  induction k with
  | zero => intro j; simp [filepath.cleanElems]
  | succ k ih =>
    intro j
    have hne : ¬ ((['.', '.'] : Str) = [] ∨ (['.', '.'] : Str) = ['.']) := by decide
    cases j with
    | zero =>
      simp only [List.replicate, filepath.cleanElems, hne, if_false, if_true,
        Bool.false_eq_true]
      have := ih 1
      simp only [List.replicate] at this
      rw [this]
    | succ j =>
      simp only [List.replicate, filepath.cleanElems, hne, if_false, if_true]
      have := ih (j + 2)
      simp only [List.replicate] at this
      rw [this]
      show ['.', '.'] :: ['.', '.'] :: List.replicate (k + j) ['.', '.']
        = ['.', '.'] :: List.replicate (k + 1 + j) ['.', '.']
      rw [show k + 1 + j = (k + j) + 1 by omega]
      rfl

theorem filepath.cleanElems_names (rooted : Bool) :
    ∀ (names out : List Str), (∀ p ∈ names, PlainName p) →
      filepath.cleanElems rooted out names = names.reverse ++ out := by
  intro names
  induction names with
  | nil => intro out _; rfl
  | cons p ps ih =>
    intro out h
    have hp := h p (List.mem_cons_self _ _)
    simp only [filepath.cleanElems, hp.1, hp.2.2.1, hp.2.2.2, or_self, if_false]
    rw [ih _ (fun q hq => h q (List.mem_cons_of_mem _ hq))]
    simp

/-- Reading back a normal output gives that output. -/
theorem filepath.cleanElems_reverse {rooted : Bool} {out : List Str}
    (h : NormalOut rooted out) : filepath.cleanElems rooted [] out.reverse = out := by
  obtain ⟨names, k, hk, hnames, hr⟩ := h
  subst hk
  rw [List.reverse_append, List.reverse_replicate, filepath.cleanElems_append]
  have hfirst : filepath.cleanElems rooted [] (List.replicate k ['.', '.'])
      = List.replicate k ['.', '.'] := by
    cases k with
    | zero => rfl
    | succ k =>
      have hroot : rooted = false := by
        cases rooted with
        | false => rfl
        | true => exact absurd (hr rfl) (by omega)
      subst hroot
      exact filepath.cleanElems_replicate (k + 1) 0
  rw [hfirst, filepath.cleanElems_names _ _ _
    (fun p hp => hnames p (List.mem_reverse.1 hp))]
  simp

theorem joinLead_normal (dir : Str) : NormalOut (joinRooted dir) (joinLead dir).reverse := by
  unfold joinLead
  rw [List.reverse_reverse]
  exact filepath.cleanElems_normal _ _ _ (fun e he => splitOn_no_sep '/' dir e he)
    ⟨[], 0, rfl, by simp, fun _ => rfl⟩

theorem NormalOut.mem {rooted : Bool} {out : List Str} (h : NormalOut rooted out) :
    ∀ l ∈ out, l ≠ [] ∧ '/' ∉ l := by
  obtain ⟨names, k, hk, hnames, _⟩ := h
  intro l hl
  rw [hk] at hl
  rcases List.mem_append.1 hl with h1 | h1
  · exact ⟨(hnames l h1).1, (hnames l h1).2.1⟩
  · rw [List.eq_of_mem_replicate h1]
    decide

/-- The Go function `filepath.Clean` leaves its own results unchanged. -/
theorem filepath.Clean_idem (dir : Str) :
    filepath.Clean (filepath.Clean dir) = filepath.Clean dir := by
  have hnorm := joinLead_normal dir
  have hmem : ∀ l ∈ joinLead dir, l ≠ [] ∧ '/' ∉ l :=
    fun l hl => hnorm.mem l (List.mem_reverse.2 hl)
  have hback := filepath.cleanElems_reverse hnorm
  rw [List.reverse_reverse] at hback
  rw [filepath.Clean_eq dir]
  by_cases hr : dir.head? = some '/'
  · have hroot : joinRooted dir = true := by simp [joinRooted, hr]
    rw [hroot] at hback
    simp only [hr, if_true]
    rw [filepath.Clean_eq]
    have hlead : joinLead ('/' :: strings.Join (joinLead dir) '/') = joinLead dir := by
      have hjr : joinRooted ('/' :: strings.Join (joinLead dir) '/') = true := by
        simp [joinRooted]
      show (filepath.cleanElems (joinRooted ('/' :: strings.Join (joinLead dir) '/')) []
        (('/' :: strings.Join (joinLead dir) '/').splitOn '/')).reverse = joinLead dir
      rw [hjr]
      by_cases hL : joinLead dir = []
      · rw [hL]
        decide
      · have hsplit : ('/' :: strings.Join (joinLead dir) '/').splitOn '/'
            = [] :: joinLead dir := by
          have h1 := splitOn_append_sep '/' (strings.Join (joinLead dir) '/') []
          rw [List.nil_append, List.splitOn_nil] at h1
          rw [h1]
          unfold strings.Join
          rw [List.splitOn_intercalate _ '/' (fun l hl => (hmem l hl).2) hL]
          rfl
        rw [hsplit]
        simp only [filepath.cleanElems, true_or, if_true]
        rw [hback, List.reverse_reverse]
    simp [hlead]
  · have hroot : joinRooted dir = false := by simp [joinRooted, hr]
    rw [hroot] at hback
    simp only [hr, if_false]
    by_cases hL : joinLead dir = []
    · simp only [hL, if_true]
      decide
    · simp only [hL, if_false]
      obtain ⟨hh1, hh2⟩ := head_intercalate (joinLead dir) hmem hL
      rw [filepath.Clean_eq]
      have hlead : joinLead (strings.Join (joinLead dir) '/') = joinLead dir := by
        have hsplit : (strings.Join (joinLead dir) '/').splitOn '/' = joinLead dir :=
          List.splitOn_intercalate _ '/' (fun l hl => (hmem l hl).2) hL
        have hjr : joinRooted (strings.Join (joinLead dir) '/') = false := by
          simp [joinRooted, hh1]
        show (filepath.cleanElems (joinRooted (strings.Join (joinLead dir) '/')) []
          ((strings.Join (joinLead dir) '/').splitOn '/')).reverse = joinLead dir
        rw [hjr, hsplit, hback, List.reverse_reverse]
      simp [hlead, hh1, hL]

/-! ## What `filepath.Walk` hands to the callback -/

theorem components_join (dir x : Str) (hx : PlainName x) :
    components (filepath.Join [dir, x]) = joinLead dir ++ [x] := by
  have hx0 := hx.1
  have hx1 := hx.2.1
  by_cases hdir : dir = []
  · subst hdir
    have hhead : x.head? ≠ some '/' := by
      cases x with
      | nil => simp
      | cons a as =>
        have : a ≠ '/' := fun ha => hx1 (by simp [ha])
        simpa using this
    have hjoin : filepath.Join [[], x] = x := by
      have hdw : List.dropWhile (fun e : Str => decide (e = [])) [[], x] = [x] := by
        simp [List.dropWhile, hx0]
      unfold filepath.Join
      rw [hdw]
      simp only [strings.Join, List.intercalate, List.intersperse, List.flatten,
        List.append_nil, filepath.Clean, splitOn_plain hx1,
        filepath.cleanElems_plain _ _ hx]
      simp [hhead]
    have hlead : joinLead [] = [] := by decide
    rw [hjoin, hlead]
    unfold components
    rw [splitOn_plain hx1]
    simp [hx0]
  · have hdw : List.dropWhile (fun e : Str => decide (e = [])) [dir, x] = [dir, x] := by
      simp [List.dropWhile, hdir]
    have hsj : strings.Join [dir, x] '/' = dir ++ '/' :: x := by
      simp [strings.Join, List.intercalate, List.intersperse]
    have hmem : ∀ l ∈ joinLead dir ++ [x], l ≠ [] ∧ '/' ∉ l := by
      intro l hl
      rcases List.mem_append.1 hl with h | h
      · exact (joinLead_normal dir).mem l (List.mem_reverse.2 h)
      · simp only [List.mem_singleton] at h
        exact h ▸ ⟨hx0, hx1⟩
    obtain ⟨hc1, hc2⟩ := components_intercalate (joinLead dir ++ [x]) hmem (by simp)
    unfold filepath.Join
    rw [hdw]
    simp only [hsj]
    rw [filepath.Clean_append_plain dir x hdir hx]
    by_cases hr : dir.head? = some '/'
    · simp only [hr, if_true]; exact hc2
    · simp only [hr, if_false]; exact hc1

/-- A path made by joining a plain name to a path is clean and is neither `/`
nor `.`. -/
theorem Join_plain_clean (dir x : Str) (hx : PlainName x) :
    filepath.Clean (filepath.Join [dir, x]) = filepath.Join [dir, x] ∧
      filepath.Join [dir, x] ≠ ['/'] ∧ filepath.Join [dir, x] ≠ ['.'] := by
  have hcomp := components_join dir x hx
  refine ⟨?_, ?_, ?_⟩
  · unfold filepath.Join
    cases hd : List.dropWhile (fun e : Str => decide (e = [])) [dir, x] with
    | nil =>
      have : List.dropWhile (fun e : Str => decide (e = [])) [dir, x] ≠ [] := by
        by_cases hdir : dir = []
        · simp [List.dropWhile, hdir, hx.1]
        · simp [List.dropWhile, hdir]
      exact absurd hd this
    | cons e es => exact filepath.Clean_idem _
  · intro h
    rw [h] at hcomp
    have : components ['/'] = [] := by decide
    rw [this] at hcomp
    exact absurd hcomp.symm (by simp)
  · intro h
    rw [h] at hcomp
    have : components ['.'] = [['.']] := by decide
    rw [this] at hcomp
    have hlen := congrArg List.length hcomp
    simp only [List.length_append, List.length_cons, List.length_nil] at hlen
    have hL : joinLead dir = [] := List.length_eq_zero.1 (by omega)
    rw [hL] at hcomp
    simp only [List.nil_append, List.cons.injEq, and_true] at hcomp
    exact hx.2.2.1 hcomp.symm

theorem entryPath_snoc (root : Str) (parts : List Str) (name : Str) :
    entryPath root (parts ++ [name]) = entryPath root parts ++ '/' :: name := by
  unfold entryPath
  by_cases hp : parts = []
  · subst hp
    simp [strings.Join, List.intercalate, List.intersperse]
  · have : parts ++ [name] ≠ [] := by simp
    simp only [hp, this, if_false]
    unfold strings.Join
    rw [intercalate_snoc '/' name parts hp]
    simp

theorem walkFn_models_append (manifestsDir : Str) (verbose : Bool) (path : Str)
    (info : Option FileInfo) (err : Option WalkError) (content : FileContent)
    (acc : Discovery) :
    (walkFn manifestsDir verbose path info err content acc).1.models
      = acc.models
        ++ (walkFn manifestsDir verbose path info err content ⟨[], []⟩).1.models := by
  unfold walkFn
  cases err with
  | some e => simp
  | none =>
    cases info with
    | none => simp
    | some info =>
      simp only
      split
      · simp
      · cases content with
        | readError => simp [Discovery.warn_models]
        | invalid => simp [Discovery.warn_models]
        | manifest m =>
          simp only
          split
          · simp [Discovery.warn_models]
          · split
            · simp [Discovery.warn_models]
            · simp

theorem walkFn_dir_models (manifestsDir : Str) (verbose : Bool) (path name : Str)
    (err : Option WalkError) (content : FileContent) (acc : Discovery) :
    (walkFn manifestsDir verbose path (some ⟨name, true⟩) err content acc).1.models
      = acc.models := by
  unfold walkFn
  cases err with
  | some e => rfl
  | none => simp

mutual
theorem walk_files (manifestsDir : Str) (verbose : Bool) :
    ∀ (node : WalkNode) (parts : List Str) (name : Str) (acc : Discovery),
      node.walkable = true → node.PlainNames →
      filepath.Clean (entryPath manifestsDir parts) = entryPath manifestsDir parts →
      entryPath manifestsDir parts ≠ ['/'] → entryPath manifestsDir parts ≠ ['.'] →
      (walk manifestsDir verbose (entryPath manifestsDir parts) name node acc).1.models
        = acc.models ++ (node.files parts name).flatMap (fileModels manifestsDir verbose)
  | WalkNode.file content, parts, name, acc => by
    intro _ _ _ _ _
    simp only [walk, WalkNode.files, List.flatMap_cons, List.flatMap_nil, List.append_nil,
      fileModels]
    exact walkFn_models_append _ _ _ _ _ _ _
  | WalkNode.dir none, parts, name, acc => by
    intro hw
    simp [WalkNode.walkable] at hw
  | WalkNode.dir (some names), parts, name, acc => by
    intro hw hp hc h1 h2
    simp only [WalkNode.walkable] at hw
    simp only [WalkNode.PlainNames] at hp
    simp only [walk, WalkNode.files]
    have hm := walkFn_dir_models manifestsDir verbose (entryPath manifestsDir parts) name
      none noContent acc
    have he := walkFn_err manifestsDir verbose (entryPath manifestsDir parts)
      (some ⟨name, true⟩) none noContent acc
    generalize walkFn manifestsDir verbose (entryPath manifestsDir parts)
      (some ⟨name, true⟩) none noContent acc = r at hm he
    obtain ⟨acc1, e1⟩ := r
    simp only at hm he
    subst he
    simp only
    rw [walkNames_files manifestsDir verbose names parts acc1 hw hp hc h1 h2, hm]
theorem walkNames_files (manifestsDir : Str) (verbose : Bool) :
    ∀ (names : WalkEntries) (parts : List Str) (acc : Discovery),
      names.walkable = true → names.PlainNames →
      filepath.Clean (entryPath manifestsDir parts) = entryPath manifestsDir parts →
      entryPath manifestsDir parts ≠ ['/'] → entryPath manifestsDir parts ≠ ['.'] →
      (walkNames manifestsDir verbose (entryPath manifestsDir parts) names acc).1.models
        = acc.models ++ (names.files parts).flatMap (fileModels manifestsDir verbose)
  | WalkEntries.nil, parts, acc => by
    intro _ _ _ _ _
    simp [walkNames, WalkEntries.files]
  | WalkEntries.cons name none rest, parts, acc => by
    intro hw
    simp [WalkEntries.walkable] at hw
  | WalkEntries.cons name (some node) rest, parts, acc => by
    intro hw hp hc h1 h2
    simp only [WalkEntries.walkable, Bool.and_eq_true] at hw
    simp only [WalkEntries.PlainNames] at hp
    obtain ⟨hc1, hj⟩ := filepath.Clean_fixed_append _ name hc h1 h2 hp.1
    have hpath : filepath.Join [entryPath manifestsDir parts, name]
        = entryPath manifestsDir (parts ++ [name]) := by
      rw [hj, entryPath_snoc]
    have hn1 : entryPath manifestsDir (parts ++ [name]) ≠ ['/'] := by
      rw [← hpath]; exact (Join_plain_clean _ _ hp.1).2.1
    have hn2 : entryPath manifestsDir (parts ++ [name]) ≠ ['.'] := by
      rw [← hpath]; exact (Join_plain_clean _ _ hp.1).2.2
    have hcl : filepath.Clean (entryPath manifestsDir (parts ++ [name]))
        = entryPath manifestsDir (parts ++ [name]) := by
      rw [← hpath]; exact (Join_plain_clean _ _ hp.1).1
    simp only [walkNames, WalkEntries.files, hpath, List.flatMap_append]
    have hwf := walk_files manifestsDir verbose node (parts ++ [name]) name acc hw.1 hp.2.1
      hcl hn1 hn2
    have hwe := (walk_err manifestsDir verbose node
      (entryPath manifestsDir (parts ++ [name])) name acc).1.2 hw.1
    generalize walk manifestsDir verbose (entryPath manifestsDir (parts ++ [name])) name
      node acc = r at hwf hwe
    obtain ⟨acc1, e1⟩ := r
    simp only at hwf hwe
    subst hwe
    simp only
    rw [walkNames_files manifestsDir verbose rest parts acc1 hw.2 hp.2.2 hc h1 h2, hwf,
      List.append_assoc]
end

/-- In a manifest tree that can be walked and whose names are plain, `discoverModels`
returns what its callback appends for each file, in the order of the walk. -/
theorem discoverModels_files (ollamaDir : Str) (verbose : Bool) (tree : WalkNode)
    (hw : tree.walkable = true) (hp : tree.PlainNames) :
    (discoverModels ollamaDir verbose (some tree)).1
      = (tree.files [] (filepath.Base (filepath.Join [ollamaDir, "manifests".toList]))).flatMap
          (fileModels (filepath.Join [ollamaDir, "manifests".toList]) verbose) := by
  have hm : PlainName "manifests".toList := by
    refine ⟨by decide, by decide, by decide, by decide⟩
  obtain ⟨hc, h1, h2⟩ := Join_plain_clean ollamaDir "manifests".toList hm
  have hroot : entryPath (filepath.Join [ollamaDir, "manifests".toList]) []
      = filepath.Join [ollamaDir, "manifests".toList] := by simp [entryPath]
  have hwf := walk_files (filepath.Join [ollamaDir, "manifests".toList]) verbose tree []
    (filepath.Base (filepath.Join [ollamaDir, "manifests".toList])) ⟨[], []⟩ hw hp
    (by rw [hroot]; exact hc) (by rw [hroot]; exact h1) (by rw [hroot]; exact h2)
  have hwe := (walk_err (filepath.Join [ollamaDir, "manifests".toList]) verbose tree
    (filepath.Join [ollamaDir, "manifests".toList])
    (filepath.Base (filepath.Join [ollamaDir, "manifests".toList])) ⟨[], []⟩).1.2 hw
  rw [hroot] at hwf
  unfold discoverModels Walk
  simp only
  generalize walk (filepath.Join [ollamaDir, "manifests".toList]) verbose
    (filepath.Join [ollamaDir, "manifests".toList])
    (filepath.Base (filepath.Join [ollamaDir, "manifests".toList])) tree ⟨[], []⟩ = r
    at hwf hwe
  obtain ⟨acc1, e1⟩ := r
  simp only at hwf hwe
  subst hwe
  simpa using hwf

/-! ## A directory that `os.MkdirAll` makes is empty -/

/-- Once the last component of a path has become a directory without an entry `x`,
the path followed by `x` names nothing. -/
theorem walkPath_into_fresh {fs fs2 : FS} (hle : fs.Le fs2) {n x : Str}
    (hn : n ≠ ['.'] ∧ n ≠ ['.', '.']) (hx : x ≠ ['.'] ∧ x ≠ ['.', '.']) :
    ∀ (budget : Nat) (cur : CPath) (lead : List Str) (d : CPath) (m : Str),
      walkPath fs false budget cur (lead ++ [n]) = Walked.missing d m →
      fs2.node (d ++ [n]) = some Node.dir → fs2.node (d ++ [n] ++ [x]) = none →
      ∀ (p : CPath) (nd : Node),
        walkPath fs2 false budget cur (lead ++ [n] ++ [x]) ≠ Walked.found p nd := by
  intro budget
  induction budget with
  | zero =>
    intro cur lead d m hw
    cases lead <;> simp [walkPath] at hw
  | succ b ih =>
    intro cur lead d m hw hdir hnone p nd
    cases lead with
    | nil =>
      simp only [List.nil_append, walkPath, hn.1, hn.2, if_false] at hw
      have e2 : ([] : List Str) ++ [n] ++ [x] = n :: [x] := rfl
      rw [e2]
      simp only [walkPath, hn.1, hn.2, if_false]
      cases hnode : fs.node (cur ++ [n]) with
      | none =>
        rw [hnode] at hw
        simp only [if_true] at hw
        injection hw with hd hm
        subst hd
        rw [hdir]
        simp only
        cases b with
        | zero => simp [walkPath]
        | succ b2 =>
          simp only [walkPath, hx.1, hx.2, if_false, hnone, if_true]
          simp
      | some nd2 =>
        rw [hnode] at hw
        cases nd2 with
        | dir => simp [walkPath] at hw
        | file => simp at hw
        | link t => simp at hw
    | cons c rest =>
      have hne : ∀ z : Str, rest ++ [z] ≠ [] := by intro z; simp
      have hne2 : rest ++ [n] ++ [x] ≠ [] := by simp
      have e1 : (c :: rest) ++ [n] = c :: (rest ++ [n]) := rfl
      have e2 : (c :: rest) ++ [n] ++ [x] = c :: (rest ++ [n] ++ [x]) := rfl
      rw [e1] at hw
      rw [e2]
      simp only [walkPath] at hw ⊢
      by_cases h1 : c = ['.']
      · simp only [h1, if_true] at hw ⊢
        exact ih _ _ _ _ hw hdir hnone p nd
      · by_cases h2 : c = ['.', '.']
        · simp only [h2, if_true] at hw ⊢
          simp only [show (['.', '.'] : Str) ≠ ['.'] by decide, if_false] at hw ⊢
          exact ih _ _ _ _ hw hdir hnone p nd
        · simp only [h1, h2, if_false] at hw ⊢
          cases hnode : fs.node (cur ++ [c]) with
          | none =>
            rw [hnode] at hw
            simp [hne] at hw
          | some nd2 =>
            rw [hnode] at hw
            rw [hle.2 _ _ hnode]
            cases nd2 with
            | dir => exact ih _ _ _ _ hw hdir hnone p nd
            | file => simp [hne] at hw
            | link t =>
              simp only [hne, hne2, false_and, if_false] at hw ⊢
              by_cases ht : t = []
              · simp [ht] at hw
              · simp only [ht, if_false] at hw ⊢
                rw [← List.append_assoc] at hw
                rw [← List.append_assoc, ← List.append_assoc]
                exact ih _ _ _ _ hw hdir hnone p nd

/-- The components of a clean path are what `filepath.Clean` reads in it. -/
theorem components_clean {q : Str} (hc : filepath.Clean q = q) (hdot : q ≠ ['.']) :
    components q = joinLead q := by
  have hmem : ∀ l ∈ joinLead q, l ≠ [] ∧ '/' ∉ l :=
    fun l hl => (joinLead_normal q).mem l (List.mem_reverse.2 hl)
  rw [filepath.Clean_eq] at hc
  by_cases hL : joinLead q = []
  · by_cases hr : q.head? = some '/'
    · simp only [hr, if_true, hL] at hc
      rw [hL, ← hc]
      decide
    · simp only [hr, if_false, hL, if_true] at hc
      exact absurd hc.symm hdot
  · obtain ⟨hc1, hc2⟩ := components_intercalate (joinLead q) hmem hL
    by_cases hr : q.head? = some '/'
    · simp only [hr, if_true] at hc
      calc components q = components ('/' :: strings.Join (joinLead q) '/') := by rw [hc]
        _ = joinLead q := hc2
    · simp only [hr, if_false, hL] at hc
      calc components q = components (strings.Join (joinLead q) '/') := by rw [hc]
        _ = joinLead q := hc1

theorem joinRooted_join (dir x : Str) (hx : PlainName x) :
    joinRooted (filepath.Join [dir, x]) = joinRooted dir := by
  have hx0 := hx.1
  have hx1 := hx.2.1
  unfold joinRooted
  by_cases hdir : dir = []
  · subst hdir
    have hhead : x.head? ≠ some '/' := by
      cases x with
      | nil => simp
      | cons a as =>
        have : a ≠ '/' := fun ha => hx1 (by simp [ha])
        simpa using this
    have hjoin : filepath.Join [[], x] = x := by
      have hdw : List.dropWhile (fun e : Str => decide (e = [])) [[], x] = [x] := by
        simp [List.dropWhile, hx0]
      unfold filepath.Join
      rw [hdw]
      simp only [strings.Join, List.intercalate, List.intersperse, List.flatten,
        List.append_nil, filepath.Clean, splitOn_plain hx1,
        filepath.cleanElems_plain _ _ hx]
      simp [hhead]
    rw [hjoin]
    simp [hhead]
  · have hdw : List.dropWhile (fun e : Str => decide (e = [])) [dir, x] = [dir, x] := by
      simp [List.dropWhile, hdir]
    have hsj : strings.Join [dir, x] '/' = dir ++ '/' :: x := by
      simp [strings.Join, List.intercalate, List.intersperse]
    have hmem : ∀ l ∈ joinLead dir ++ [x], l ≠ [] ∧ '/' ∉ l := by
      intro l hl
      rcases List.mem_append.1 hl with h | h
      · exact (joinLead_normal dir).mem l (List.mem_reverse.2 h)
      · simp only [List.mem_singleton] at h
        exact h ▸ ⟨hx0, hx1⟩
    obtain ⟨hh1, _⟩ := head_intercalate (joinLead dir ++ [x]) hmem (by simp)
    unfold filepath.Join
    rw [hdw]
    simp only [hsj]
    rw [filepath.Clean_append_plain dir x hdir hx]
    by_cases hr : dir.head? = some '/'
    · simp [hr]
    · simp [hr, hh1]

/-- How a path below a joined path is resolved. -/
theorem namei_join_join (dir n x : Str) (hn : PlainName n) (hx : PlainName x) (fs : FS)
    (follow : Bool) :
    namei fs follow (filepath.Join [filepath.Join [dir, n], x])
      = walkPath fs follow pathBudget (if joinRooted dir then [] else fs.cwd)
          (joinLead dir ++ [n] ++ [x]) := by
  obtain ⟨hc, _, hdot⟩ := Join_plain_clean dir n hn
  rw [namei_join _ x hx, joinRooted_join dir n hn, ← components_clean hc hdot,
    components_join dir n hn]

/-- If the parent of `{dir}/{name}` exists, in a well-formed file system in which no
name below `{dir}/{name}` refers to anything, then none does after
`os.MkdirAll` of `{dir}/{name}`: the call makes that directory at most, and makes it
empty. -/
theorem os.MkdirAll_keeps_empty (fs : FS) (dir name : Str) (hname : PlainName name)
    (hwf : fs.WellFormed)
    (hpar : ∀ par, os.parentOf (filepath.Join [dir, name]) = some par →
      os.Stat fs par = Except.ok Node.dir)
    (hempty : ∀ x : Str, PlainName x → ∃ e,
      os.Lstat fs (filepath.Join [filepath.Join [dir, name], x]) = Except.error e) :
    ∀ x : Str, PlainName x → ∃ e,
      os.Lstat (os.MkdirAll fs (filepath.Join [dir, name])).1
        (filepath.Join [filepath.Join [dir, name], x]) = Except.error e := by
  intro x hx
  unfold os.MkdirAll os.mkdirAllAux
  cases hs : os.Stat fs (filepath.Join [dir, name]) with
  | ok nd => cases nd <;> exact hempty x hx
  | error e =>
    simp only
    have hparent : (match os.parentOf (filepath.Join [dir, name]) with
        | some par => os.mkdirAllAux (filepath.Join [dir, name]).length fs par
        | none => (fs, none)) = (fs, none) := by
      cases hp : os.parentOf (filepath.Join [dir, name]) with
      | none => rfl
      | some par =>
        simp only
        have hlt := os.parentOf_length hp
        cases hlen : (filepath.Join [dir, name]).length with
        | zero => omega
        | succ k =>
          unfold os.mkdirAllAux
          rw [hpar par hp]
    rw [hparent]
    simp only
    cases hm : os.Mkdir fs (filepath.Join [dir, name]) with
    | error e2 =>
      simp only
      split <;> exact hempty x hx
    | ok fs2 =>
      simp only
      unfold os.Mkdir at hm
      rw [namei_join dir name hname] at hm
      cases hw : walkPath fs false pathBudget (if joinRooted dir = true then [] else fs.cwd)
          (joinLead dir ++ [name]) with
      | found q nd => rw [hw] at hm; cases hm
      | err e3 => rw [hw] at hm; cases hm
      | missing d m =>
        rw [hw] at hm
        simp only at hm
        injection hm with hm
        obtain ⟨hmn, _⟩ := walkPath_sibling (FS.Le.refl fs) ⟨hname.2.2.1, hname.2.2.2⟩
          ⟨hname.2.2.1, hname.2.2.2⟩ _ _ _ _ _ hw
        subst hmn
        have hins := walkPath_missing Node.dir _ _ _ _ _ hw
        have hle : fs.Le fs2 := hm ▸ FS.le_insert _ hins.1
        have hdirnode : fs2.node (d ++ [m]) = some Node.dir := by
          rw [← hm, FS.node_insert]
          simp
        have hchild : fs2.node (d ++ [m] ++ [x]) = none := by
          rw [← hm, FS.node_insert]
          have h1 : d ++ [m] ++ [x] ≠ [] := by simp
          have h2 : d ++ [m] ≠ d ++ [m] ++ [x] := by
            intro h
            have := congrArg List.length h
            simp at this
          simp only [h1, h2, if_false]
          cases hc : fs.node (d ++ [m] ++ [x]) with
          | none => rfl
          | some nd =>
            have := hwf (d ++ [m]) x (by rw [hc]; simp)
            rw [hins.1] at this
            cases this
        have hnot := walkPath_into_fresh hle ⟨hname.2.2.1, hname.2.2.2⟩
          ⟨hx.2.2.1, hx.2.2.2⟩ _ _ _ _ _ hw hdirnode hchild
        unfold os.Lstat
        rw [namei_join_join dir m x hname hx, ← hle.1]
        cases hres : walkPath fs2 false pathBudget
            (if joinRooted dir = true then [] else fs.cwd) (joinLead dir ++ [m] ++ [x]) with
        | found q nd => exact absurd hres (hnot q nd)
        | missing d2 m2 => exact ⟨_, rfl⟩
        | err e3 => exact ⟨_, rfl⟩

/-! ## The scenario of the specification -/

theorem providerFS_wellFormed : providerFS.WellFormed := by
  intro p x h
  have hne : p ++ [x] ≠ [] := by simp
  simp only [FS.node, hne, if_false, providerFS, lookupEntry] at h
  by_cases h1 : ["lms".toList, "ollama".toList] = p ++ [x]
  · have hp : p = ["lms".toList] := by
      have h2 : ["lms".toList] ++ ["ollama".toList] = p ++ [x] := h1
      exact ((List.append_inj' h2 rfl).1).symm
    rw [hp]
    decide
  · simp only [h1, if_false] at h
    by_cases h2 : ["lms".toList] = p ++ [x]
    · have hp : p = [] := by
        have h3 : ([] : List Str) ++ ["lms".toList] = p ++ [x] := h2
        exact ((List.append_inj' h3 rfl).1).symm
      rw [hp]
      rfl
    · simp only [h2, if_false] at h
      exact absurd rfl h

/-- In `providerFS` no name below `/lms/ollama/llama3-8b` refers to anything. -/
theorem providerFS_no_entries (x : Str) (hx : PlainName x) :
    ∃ e, os.Lstat providerFS
      (filepath.Join [filepath.Join ["/lms/ollama".toList, exModel.Name], x])
      = Except.error e := by
  refine ⟨Errno.ENOENT, ?_⟩
  have hname : PlainName exModel.Name := by
    refine ⟨by decide, by decide, by decide, by decide⟩
  have hlead : joinLead "/lms/ollama".toList = ["lms".toList, "ollama".toList] := by decide
  have hroot : joinRooted "/lms/ollama".toList = true := by decide
  unfold os.Lstat
  rw [namei_join_join _ _ x hname hx, hlead, hroot]
  have hb : pathBudget = 252 + 1 + 1 + 1 + 1 := rfl
  rw [hb]
  simp [walkPath, FS.node, lookupEntry, providerFS, exModel]

/-! ## The claims about `processModel` -/

theorem strings.Replace_first (algo hash : Str) (h : ':' ∉ algo) :
    strings.Replace (algo ++ ':' :: hash) ':' '-' 1 = algo ++ '-' :: hash := by
  induction algo with
  | nil =>
    cases hash <;> simp [strings.Replace]
  | cons c cs ih =>
    have hc : c ≠ ':' := fun hc => h (by simp [hc])
    have hcs : ':' ∉ cs := fun hcs => h (List.mem_cons_of_mem _ hcs)
    show strings.Replace (c :: (cs ++ ':' :: hash)) ':' '-' (0 + 1) = c :: (cs ++ '-' :: hash)
    rw [strings.Replace, if_neg hc]
    exact congrArg (c :: ·) (ih hcs)

theorem processModel_result (ρ : RangeOrder) (model : ModelInfo)
    (ollamaDir ollamaProviderDir : Str) (dryRun verbose : Bool) (fs : FS) :
    (processModel ρ model ollamaDir ollamaProviderDir dryRun verbose fs).result = true ↔
      (∃ e, os.Lstat fs (mainModelPathOf ollamaProviderDir model) = Except.error e) ∧
        (dryRun = true ∨
          ((os.MkdirAll fs (modelDirOf ollamaProviderDir model)).2 = none ∧
            ∃ fs2, os.Symlink (os.MkdirAll fs (modelDirOf ollamaProviderDir model)).1
              (blobPathOf ollamaDir model.MainModelBlob)
              (mainModelPathOf ollamaProviderDir model) = Except.ok fs2)) := by
  cases hl : os.Lstat fs (mainModelPathOf ollamaProviderDir model) with
  | ok n =>
    rw [processModel_exists _ _ _ _ _ _ _ n hl]
    simp
  | error e =>
    cases dryRun with
    | true =>
      have hr : (processModel ρ model ollamaDir ollamaProviderDir true verbose fs).result
          = true := by
        unfold mainModelPathOf modelDirOf at hl
        simp only [processModel, hl]
        rfl
      simp [hr]
    | false =>
      rw [processModel_live _ _ _ _ _ _ e hl]
      generalize os.MkdirAll fs (modelDirOf ollamaProviderDir model) = r
      obtain ⟨fs1, e1⟩ := r
      cases e1 with
      | some e1 => simp
      | none =>
        simp only
        cases hs : os.Symlink fs1 (blobPathOf ollamaDir model.MainModelBlob)
            (mainModelPathOf ollamaProviderDir model) with
        | error e2 => simp
        | ok fs2 => simp

theorem processModel_link_kept (ρ : RangeOrder) (model : ModelInfo)
    (ollamaDir ollamaProviderDir : Str) (verbose : Bool) (fs : FS)
    (h : (processModel ρ model ollamaDir ollamaProviderDir false verbose fs).result = true) :
    os.Lstat (processModel ρ model ollamaDir ollamaProviderDir false verbose fs).fs
        (mainModelPathOf ollamaProviderDir model)
      = Except.ok (Node.link (blobPathOf ollamaDir model.MainModelBlob)) := by
  cases hl : os.Lstat fs (mainModelPathOf ollamaProviderDir model) with
  | ok n =>
    rw [processModel_exists _ _ _ _ _ _ _ n hl] at h
    simp at h
  | error e =>
    rw [processModel_live _ _ _ _ _ _ e hl] at h ⊢
    generalize os.MkdirAll fs (modelDirOf ollamaProviderDir model) = r at h ⊢
    obtain ⟨fs1, e1⟩ := r
    cases e1 with
    | some e1 => simp at h
    | none =>
      simp only at h ⊢
      cases hs : os.Symlink fs1 (blobPathOf ollamaDir model.MainModelBlob)
          (mainModelPathOf ollamaProviderDir model) with
      | error e2 => rw [hs] at h; simp at h
      | ok fs2 =>
        exact os.Lstat_mono (additionalLoop_le _ _ _ _ _) (os.Symlink_ok hs).2

/-- **C3.** In a live run of `processModel` in which nothing exists at the primary
link path and the directory and the link are created successfully, the file
system left behind has a symbolic link at `{providerRoot}/{Name}/{Name}.gguf`
whose target is `{ollamaDir}/blobs/{f}`, `f` being `MainModelBlob` with its first
`:` replaced by `-`: `algo:hash` gives `algo-hash` whenever `algo` has no `:`, and
`sha256:abcd` gives `sha256-abcd`. The two paths are the ones `filepath.Join`
computes; for clean roots other than `/` and `.`, a model name and a blob file name
that are plain path elements, they are the strings
`{providerRoot}/{Name}/{Name}.gguf` and `{ollamaDir}/blobs/{f}` letter for letter. -/
theorem processModel_creates_primary_link (ρ : RangeOrder) (model : ModelInfo)
    (ollamaDir ollamaProviderDir : Str) (verbose : Bool) (fs fs1 fs2 : FS) (e : Errno)
    (hfree : os.Lstat fs
      (filepath.Join [filepath.Join [ollamaProviderDir, model.Name],
        model.Name ++ ".gguf".toList]) = Except.error e)
    (hdir : os.MkdirAll fs (filepath.Join [ollamaProviderDir, model.Name]) = (fs1, none))
    (hlink : os.Symlink fs1
      (filepath.Join [ollamaDir, "blobs".toList,
        strings.Replace model.MainModelBlob ':' '-' 1])
      (filepath.Join [filepath.Join [ollamaProviderDir, model.Name],
        model.Name ++ ".gguf".toList]) = Except.ok fs2) :
    (processModel ρ model ollamaDir ollamaProviderDir false verbose fs).result = true ∧
    os.Lstat (processModel ρ model ollamaDir ollamaProviderDir false verbose fs).fs
        (filepath.Join [filepath.Join [ollamaProviderDir, model.Name],
          model.Name ++ ".gguf".toList])
      = Except.ok (Node.link (filepath.Join [ollamaDir, "blobs".toList,
          strings.Replace model.MainModelBlob ':' '-' 1])) ∧
    (∀ algo hash : Str, ':' ∉ algo →
      strings.Replace (algo ++ ':' :: hash) ':' '-' 1 = algo ++ '-' :: hash) ∧
    strings.Replace "sha256:abcd".toList ':' '-' 1 = "sha256-abcd".toList ∧
    (filepath.Clean ollamaProviderDir = ollamaProviderDir → ollamaProviderDir ≠ ['/'] →
      ollamaProviderDir ≠ ['.'] → PlainName model.Name →
      filepath.Join [filepath.Join [ollamaProviderDir, model.Name],
          model.Name ++ ".gguf".toList]
        = ollamaProviderDir ++ '/' :: model.Name ++ '/' :: model.Name ++ ".gguf".toList) ∧
    (filepath.Clean ollamaDir = ollamaDir → ollamaDir ≠ ['/'] → ollamaDir ≠ ['.'] →
      PlainName (strings.Replace model.MainModelBlob ':' '-' 1) →
      filepath.Join [ollamaDir, "blobs".toList,
          strings.Replace model.MainModelBlob ':' '-' 1]
        = ollamaDir ++ "/blobs/".toList
          ++ strings.Replace model.MainModelBlob ':' '-' 1) := by
  have hres : (processModel ρ model ollamaDir ollamaProviderDir false verbose fs).result
      = true := by
    rw [processModel_result]
    refine ⟨⟨e, hfree⟩, Or.inr ?_⟩
    unfold modelDirOf mainModelPathOf blobPathOf modelDirOf
    rw [hdir]
    exact ⟨rfl, fs2, hlink⟩
  exact ⟨hres, processModel_link_kept ρ model ollamaDir ollamaProviderDir verbose fs hres,
    strings.Replace_first, by decide,
    mainModelPath_spelled ollamaProviderDir model.Name,
    blobPath_spelled ollamaDir _⟩

/-- Witness of **C3**: `exModel` materialised into an empty file system. -/
theorem processModel_creates_primary_link_witness :
    os.Lstat
        (processModel id exModel "/ollama".toList "/lms/ollama".toList false true emptyFS).fs
        "/lms/ollama/llama3-8b/llama3-8b.gguf".toList
      = Except.ok (Node.link "/ollama/blobs/sha256-aaa111".toList) :=
  (processModel_creates_primary_link id exModel "/ollama".toList "/lms/ollama".toList true
    emptyFS
    (os.MkdirAll emptyFS "/lms/ollama/llama3-8b".toList).1
    (emptyFS.insert ["lms".toList] Node.dir
      |>.insert ["lms".toList, "ollama".toList] Node.dir
      |>.insert ["lms".toList, "ollama".toList, "llama3-8b".toList] Node.dir
      |>.insert ["lms".toList, "ollama".toList, "llama3-8b".toList,
          "llama3-8b.gguf".toList] (Node.link "/ollama/blobs/sha256-aaa111".toList))
    Errno.ENOENT (by decide) (by decide) (by decide)).2.1

/-- **C4.** Whenever an entry of any kind, a dangling symbolic link included,
exists at the primary link path `{providerRoot}/{Name}/{Name}.gguf`, `processModel`
returns false, in a live and in a dry run, and leaves the file system as it was: no
directory, no primary link and no auxiliary link is made, whatever auxiliary blobs
the model has. All it prints is the `SKIPPED` line. -/
theorem processModel_existing_primary_skipped (ρ : RangeOrder) (model : ModelInfo)
    (ollamaDir ollamaProviderDir : Str) (dryRun verbose : Bool) (fs : FS) (n : Node)
    (h : os.Lstat fs
      (filepath.Join [filepath.Join [ollamaProviderDir, model.Name],
        model.Name ++ ".gguf".toList]) = Except.ok n) :
    (processModel ρ model ollamaDir ollamaProviderDir dryRun verbose fs).result = false ∧
    (processModel ρ model ollamaDir ollamaProviderDir dryRun verbose fs).fs = fs ∧
    (processModel ρ model ollamaDir ollamaProviderDir dryRun verbose fs).out
      = [Line.skipped model.Name] := by
  rw [processModel_exists ρ model ollamaDir ollamaProviderDir dryRun verbose fs n h]
  exact ⟨rfl, rfl, rfl⟩

/-- Witness of **C4**: the primary link of `exModel` dangles and its projector link
is missing; a live run returns false and changes nothing. -/
theorem processModel_existing_primary_skipped_witness :
    os.Stat danglingFS "/lms/ollama/llama3-8b/llama3-8b.gguf".toList
      = Except.error Errno.ENOENT ∧
    os.Lstat danglingFS "/lms/ollama/llama3-8b/llama3-8b-projector.bin".toList
      = Except.error Errno.ENOENT ∧
    (processModel id exModel "/ollama".toList "/lms/ollama".toList false true
      danglingFS).result = false ∧
    (processModel id exModel "/ollama".toList "/lms/ollama".toList false true
      danglingFS).fs = danglingFS :=
  ⟨by decide, by decide,
    (processModel_existing_primary_skipped id exModel "/ollama".toList
      "/lms/ollama".toList false true danglingFS (Node.link "/gone".toList) (by decide)).1,
    (processModel_existing_primary_skipped id exModel "/ollama".toList
      "/lms/ollama".toList false true danglingFS (Node.link "/gone".toList)
      (by decide)).2.1⟩

/-- **C7.** `processModel` returns true exactly when nothing existed at the primary
link path and either the run is a dry run or both the creation of the model
directory and that of the primary link succeeded; so it returns false when the
primary path is occupied or when one of the two creations fails. The auxiliary blobs,
and whether their links can be made, have no influence on the value returned, and
after a live run that returned true the primary link is still in place. -/
theorem processModel_true_iff (ρ : RangeOrder) (model : ModelInfo)
    (ollamaDir ollamaProviderDir : Str) (dryRun verbose : Bool) (fs : FS) :
    ((processModel ρ model ollamaDir ollamaProviderDir dryRun verbose fs).result = true ↔
      (∃ e, os.Lstat fs (mainModelPathOf ollamaProviderDir model) = Except.error e) ∧
        (dryRun = true ∨
          ((os.MkdirAll fs (modelDirOf ollamaProviderDir model)).2 = none ∧
            ∃ fs2, os.Symlink (os.MkdirAll fs (modelDirOf ollamaProviderDir model)).1
              (blobPathOf ollamaDir model.MainModelBlob)
              (mainModelPathOf ollamaProviderDir model) = Except.ok fs2))) ∧
    (∀ (ρ2 : RangeOrder) (blobs : GoMap),
      (processModel ρ2 { model with AdditionalBlobs := blobs } ollamaDir ollamaProviderDir
          dryRun verbose fs).result
        = (processModel ρ model ollamaDir ollamaProviderDir dryRun verbose fs).result) ∧
    ((processModel ρ model ollamaDir ollamaProviderDir dryRun verbose fs).result = true →
      dryRun = false →
      os.Lstat (processModel ρ model ollamaDir ollamaProviderDir dryRun verbose fs).fs
          (mainModelPathOf ollamaProviderDir model)
        = Except.ok (Node.link (blobPathOf ollamaDir model.MainModelBlob))) := by
  refine ⟨processModel_result ρ model ollamaDir ollamaProviderDir dryRun verbose fs, ?_, ?_⟩
  · intro ρ2 blobs
    rw [Bool.eq_iff_iff, processModel_result, processModel_result]
    exact Iff.rfl
  · intro h hd
    subst hd
    exact processModel_link_kept ρ model ollamaDir ollamaProviderDir verbose fs h

/-- Witness of **C7**: the auxiliary link of this model cannot be made (its file name
names a directory that does not exist), the call returns true all the same and the
primary link is in place. -/
theorem processModel_true_iff_witness :
    (processModel id
      ⟨"llama3-8b".toList, "sha256:aaa111".toList,
        [("sha256:bbb222".toList, "no/such/dir.bin".toList)]⟩
      "/ollama".toList "/lms/ollama".toList false true emptyFS).out
      = [Line.creating "llama3-8b".toList,
         Line.mainModel "/lms/ollama/llama3-8b/llama3-8b.gguf".toList
           "/ollama/blobs/sha256-aaa111".toList,
         Line.warnAdditional "no/such/dir.bin".toList Errno.ENOENT] ∧
    os.Lstat (processModel id
      ⟨"llama3-8b".toList, "sha256:aaa111".toList,
        [("sha256:bbb222".toList, "no/such/dir.bin".toList)]⟩
      "/ollama".toList "/lms/ollama".toList false true emptyFS).fs
      (mainModelPathOf "/lms/ollama".toList
        ⟨"llama3-8b".toList, "sha256:aaa111".toList,
          [("sha256:bbb222".toList, "no/such/dir.bin".toList)]⟩)
      = Except.ok (Node.link (blobPathOf "/ollama".toList "sha256:aaa111".toList)) :=
  ⟨by decide,
    (processModel_true_iff id
      ⟨"llama3-8b".toList, "sha256:aaa111".toList,
        [("sha256:bbb222".toList, "no/such/dir.bin".toList)]⟩
      "/ollama".toList "/lms/ollama".toList false true emptyFS).2.2 (by decide) rfl⟩

/-! ## The claims about whole runs -/

/-- **C6.** A dry run never changes the file system: the provider-directory step of
`main` followed by `processModel` in dry-run mode on every model leaves the file
system exactly as it was, for every list of models, every pair of roots and every
initial state; so does `main` as a whole for every manifest tree. -/
theorem dry_run_leaves_fs_unchanged (ρ : RangeOrder) (ollamaDir lmstudioDir : Str)
    (verbose : Bool) (models : List ModelInfo) (manifests : Option WalkNode) (fs : FS)
    (out : List Line) :
    (materialize ρ ollamaDir lmstudioDir true verbose models fs out).fs = fs ∧
    (main ρ ollamaDir lmstudioDir true verbose manifests fs).fs = fs := by
  have hmat : ∀ (ms : List ModelInfo) (o : List Line),
      (materialize ρ ollamaDir lmstudioDir true verbose ms fs o).fs = fs := by
    intro ms o
    simp only [materialize, Bool.true_eq_false, if_false]
    exact processModels_dry ρ ollamaDir _ verbose ms _
  refine ⟨hmat models out, ?_⟩
  unfold main
  rcases hd : discoverModels ollamaDir verbose manifests with ⟨ms, err, warnings⟩
  cases err with
  | some e => rfl
  | none =>
    simp only
    split
    · rfl
    · exact hmat _ _

/-- **C5**, amended. A live pass over the models that prints no `ERROR` line (every
model is either created or skipped as already there) is idempotent: a second live
pass over the same list, from the state the first one left, changes nothing in the
file system, returns false for every model (none created, all skipped) and prints
one `SKIPPED` line per model. -/
theorem second_pass_skips_all (ρ1 ρ2 : RangeOrder) (ollamaDir ollamaProviderDir : Str)
    (verbose1 verbose2 : Bool) (models : List ModelInfo) (fs : FS)
    (hclean : ∀ l ∈ (processModels ρ1 ollamaDir ollamaProviderDir false verbose1 models
      ⟨0, 0, fs, []⟩).out, l.isError = false) :
    processModels ρ2 ollamaDir ollamaProviderDir false verbose2 models
        ⟨0, 0, (processModels ρ1 ollamaDir ollamaProviderDir false verbose1 models
          ⟨0, 0, fs, []⟩).fs, []⟩
      = ⟨0, models.length,
          (processModels ρ1 ollamaDir ollamaProviderDir false verbose1 models
            ⟨0, 0, fs, []⟩).fs,
          models.map (fun m => Line.skipped m.Name)⟩ :=
  processModels_second_pass ρ1 ρ2 ollamaDir ollamaProviderDir verbose1 verbose2 models fs
    hclean

/-- Witness of **C5**, amended: the scenario of the specification, run twice. -/
theorem second_pass_skips_all_witness :
    (processModels id "/ollama".toList "/lms/ollama".toList false true [exModel]
        ⟨0, 0, emptyFS, []⟩).created = 1 ∧
    processModels id "/ollama".toList "/lms/ollama".toList false true [exModel]
        ⟨0, 0, (processModels id "/ollama".toList "/lms/ollama".toList false true [exModel]
          ⟨0, 0, emptyFS, []⟩).fs, []⟩
      = ⟨0, 1,
          (processModels id "/ollama".toList "/lms/ollama".toList false true [exModel]
            ⟨0, 0, emptyFS, []⟩).fs,
          [Line.skipped "llama3-8b".toList]⟩ :=
  ⟨by decide,
    second_pass_skips_all id id "/ollama".toList "/lms/ollama".toList true true [exModel]
      emptyFS (by decide)⟩

/-- Counterexample to **C5** as stated. The destination holds a symbolic link
`aaa-x` pointing at the directory `bbb-y`, not yet there. In the first pass over the
two discovered models, `aaa-x` fails (its directory cannot be made over the dangling
link) and `bbb-y` is created; in the second pass the link resolves, `aaa-x` is
created (`processModel` returns true) and the file system changes. -/
theorem second_pass_not_idempotent :
    (discoverModels "/ollama".toList false (some twoModelTree)).1 = twoModels ∧
    (processModels id "/ollama".toList "/lms/ollama".toList false false twoModels
        ⟨0, 0, redirectFS, []⟩).out
      = [Line.creating "aaa-x".toList,
         Line.errorDirectory "aaa-x".toList Errno.EEXIST,
         Line.creating "bbb-y".toList] ∧
    (processModel id ⟨"aaa-x".toList, "sha256:a1".toList, []⟩ "/ollama".toList
        "/lms/ollama".toList false false
        (processModels id "/ollama".toList "/lms/ollama".toList false false twoModels
          ⟨0, 0, redirectFS, []⟩).fs).result = true ∧
    (processModels id "/ollama".toList "/lms/ollama".toList false false twoModels
        ⟨0, 0, (processModels id "/ollama".toList "/lms/ollama".toList false false
          twoModels ⟨0, 0, redirectFS, []⟩).fs, []⟩).created = 1 ∧
    (processModels id "/ollama".toList "/lms/ollama".toList false false twoModels
        ⟨0, 0, (processModels id "/ollama".toList "/lms/ollama".toList false false
          twoModels ⟨0, 0, redirectFS, []⟩).fs, []⟩).fs
      ≠ (processModels id "/ollama".toList "/lms/ollama".toList false false twoModels
          ⟨0, 0, redirectFS, []⟩).fs := by
  decide

/-- For a manifest file that is not hidden, whose relative path has at least three
components `…/{family}/{variant}` and whose last model layer has a non-empty digest,
the callback appends one `ModelInfo`, named `{family}-{variant}`. -/
theorem walkFn_manifest_file (manifestsDir : Str) (verbose : Bool) (dirs : List Str)
    (family variant : Str) (m : OllamaManifest) (d : Str) (acc : Discovery)
    (hthree : dirs ≠ [])
    (hplain : ∀ c ∈ dirs ++ [family, variant], c ≠ [] ∧ '/' ∉ c)
    (hvisible : strings.HasPrefix variant ['.'] = false)
    (hlayer : lastModelDigest m.Layers = some d) (hd : d ≠ []) :
    ∃ mi : ModelInfo,
      walkFn manifestsDir verbose
          (manifestsDir ++ '/' :: strings.Join (dirs ++ [family, variant]) '/')
          (some ⟨variant, false⟩) none (FileContent.manifest m) acc
        = ({ acc with models := acc.models ++ [mi] }, none) ∧
      mi.Name = family ++ ['-'] ++ variant ∧ mi.MainModelBlob = d := by
  have hparts := pathParts_eq manifestsDir (dirs ++ [family, variant]) (by simp) hplain
  have hlen : (dirs ++ [family, variant]).length = dirs.length + 2 := by simp
  have hpos : 0 < dirs.length := List.length_pos.2 hthree
  have hfam : (dirs ++ [family, variant]).getD ((dirs ++ [family, variant]).length - 2) []
      = family := by
    rw [hlen, List.getD_eq_getElem?_getD, Nat.add_sub_cancel,
      List.getElem?_append_right (Nat.le_refl _)]
    simp
  have hvar : (dirs ++ [family, variant]).getD ((dirs ++ [family, variant]).length - 1) []
      = variant := by
    rw [hlen, List.getD_eq_getElem?_getD, show dirs.length + 2 - 1 = dirs.length + 1 by omega,
      List.getElem?_append_right (Nat.le_succ _)]
    simp
  have hmain : (scanLayers (family ++ ['-'] ++ variant) m.Layers
      ⟨family ++ ['-'] ++ variant, [], []⟩).MainModelBlob = d := by
    rw [scanLayers_main, hlayer]; rfl
  refine ⟨scanLayers (family ++ ['-'] ++ variant) m.Layers
    ⟨family ++ ['-'] ++ variant, [], []⟩, ?_, ?_, hmain⟩
  · simp only [walkFn, hparts, hfam, hvar, hvisible, Bool.false_or, Bool.false_eq_true,
      if_false, hmain, hd]
    have : ¬ (dirs ++ [family, variant]).length < 3 := by omega
    simp only [this, if_false]
  · rw [scanLayers_name]


/-- **C1**, amended. In a manifest tree that is walked without error, `discoverModels`
returns, in the order of the walk, what it makes of each file. For every manifest
file that is not hidden (its name does not begin with `.`), that reads and parses,
whose path relative to the manifests root has at least three components
`…/{family}/{variant}`, and whose last layer of media type
`application/vnd.ollama.image.model` has a non-empty digest, that is exactly one
`ModelInfo`; its `Name` is `{family}-{variant}`, made of the second-to-last and the
last component, and its `MainModelBlob` is that digest. -/
theorem discoverModels_one_model_per_manifest (ollamaDir : Str) (verbose : Bool) :
    (∀ tree : WalkNode, tree.walkable = true → tree.PlainNames →
      (discoverModels ollamaDir verbose (some tree)).1
        = (tree.files []
            (filepath.Base (filepath.Join [ollamaDir, "manifests".toList]))).flatMap
            (fileModels (filepath.Join [ollamaDir, "manifests".toList]) verbose)) ∧
    (∀ (dirs : List Str) (family variant : Str) (m : OllamaManifest) (d : Str),
      dirs ≠ [] →
      (∀ c ∈ dirs ++ [family, variant], c ≠ [] ∧ '/' ∉ c) →
      strings.HasPrefix variant ['.'] = false →
      lastModelDigest m.Layers = some d → d ≠ [] →
      ∃ mi : ModelInfo,
        fileModels (filepath.Join [ollamaDir, "manifests".toList]) verbose
            (dirs ++ [family, variant], variant, FileContent.manifest m) = [mi] ∧
        mi.Name = family ++ ['-'] ++ variant ∧ mi.MainModelBlob = d) := by
  refine ⟨fun tree hw hp => discoverModels_files ollamaDir verbose tree hw hp, ?_⟩
  intro dirs family variant m d hthree hplain hvisible hlayer hd
  obtain ⟨mi, hmi, hname, hblob⟩ := walkFn_manifest_file
    (filepath.Join [ollamaDir, "manifests".toList]) verbose dirs family variant m d ⟨[], []⟩
    hthree hplain hvisible hlayer hd
  refine ⟨mi, ?_, hname, hblob⟩
  have hne : dirs ++ [family, variant] ≠ [] := by simp
  simp only [fileModels, entryPath, hne, if_false]
  rw [hmi]
  rfl

/-- Witness of **C1**, amended: the manifest of the scenario, at
`manifests/registry.ollama.ai/library/llama3/8b`; `discoverModels` yields `exModel`. -/
theorem discoverModels_one_model_per_manifest_witness :
    (discoverModels "/ollama".toList false (some exTree)).1 = [exModel] ∧
    (exTree.files [] (filepath.Base (filepath.Join ["/ollama".toList, "manifests".toList])))
      = [(["registry.ollama.ai".toList, "library".toList, "llama3".toList, "8b".toList],
          "8b".toList, FileContent.manifest exManifest)] ∧
    (discoverModels "/ollama".toList false (some exTree)).1
      = (exTree.files []
          (filepath.Base (filepath.Join ["/ollama".toList, "manifests".toList]))).flatMap
          (fileModels (filepath.Join ["/ollama".toList, "manifests".toList]) false) ∧
    ∃ mi : ModelInfo,
      fileModels (filepath.Join ["/ollama".toList, "manifests".toList]) false
          (["registry.ollama.ai".toList, "library".toList] ++ ["llama3".toList, "8b".toList],
            "8b".toList, FileContent.manifest exManifest) = [mi] ∧
      mi.Name = "llama3".toList ++ ['-'] ++ "8b".toList ∧
      mi.MainModelBlob = "sha256:aaa111".toList :=
  ⟨by decide, by decide,
    (discoverModels_one_model_per_manifest "/ollama".toList false).1 exTree (by decide)
      (by
        simp only [exTree, WalkNode.single, WalkNode.PlainNames, WalkEntries.PlainNames,
          PlainName, and_true]
        decide),
    (discoverModels_one_model_per_manifest "/ollama".toList false).2
      ["registry.ollama.ai".toList, "library".toList] "llama3".toList "8b".toList
      exManifest "sha256:aaa111".toList (by decide) (by decide) (by decide) (by decide)
      (by decide)⟩

/-- Counterexample to **C1** as stated. The three files parse, lie at least three
components below the manifests root and hold a layer of media type
`application/vnd.ollama.image.model`. The first is hidden (its name is `.8b`), the
digest of the model layer of the second is empty, and the third comes after a
directory that cannot be listed, where the walk ends. `discoverModels` yields no
`ModelInfo` for any of them. -/
theorem discoverModels_drops_hidden_and_empty_digest :
    (∃ l ∈ exManifest.Layers, l.MediaType = mediaTypeModel) ∧
    (discoverModels "/ollama".toList false
      (some (llama3Tree ".8b".toList (FileContent.manifest exManifest)))) = ([], none, []) ∧
    (∃ l ∈ (weightsOnly []).Layers, l.MediaType = mediaTypeModel) ∧
    (discoverModels "/ollama".toList false
      (some (llama3Tree "8b".toList (FileContent.manifest (weightsOnly []))))) = ([], none, [])
      ∧
    (blockedFirstTree.files [] "manifests".toList)
      = [(["library".toList, "llama3".toList, "8b".toList], "8b".toList,
          FileContent.manifest exManifest)] ∧
    (discoverModels "/ollama".toList false (some blockedFirstTree))
      = ([], some (WalkError.readdir "/ollama/manifests/a".toList), []) := by
  refine ⟨⟨⟨mediaTypeModel, "sha256:aaa111".toList, 4661211808⟩, by decide, rfl⟩, by decide,
    ⟨⟨mediaTypeModel, [], 1⟩, by decide, rfl⟩, by decide, by decide, by decide⟩

/-- **C2.** A manifest without a layer of the primary-model media type contributes no
`ModelInfo`, and every `ModelInfo` that `discoverModels` returns comes from a manifest
of the tree that has such a layer: its `MainModelBlob` is not empty and is the digest
of the last primary-model layer in the order of that manifest's layer list. -/
theorem discoverModels_keeps_only_primary (ollamaDir : Str) (verbose : Bool)
    (manifests : Option WalkNode) :
    (∀ (manifestsDir path : Str) (info : Option FileInfo) (err : Option WalkError)
        (m : OllamaManifest) (acc : Discovery),
      (∀ l ∈ m.Layers, l.MediaType ≠ mediaTypeModel) →
      (walkFn manifestsDir verbose path info err (FileContent.manifest m) acc).1.models
        = acc.models) ∧
    (∀ mi ∈ (discoverModels ollamaDir verbose manifests).1,
      mi.MainModelBlob ≠ [] ∧
      ∃ m ∈ rootManifests manifests, Produced m mi ∧
        (∃ l ∈ m.Layers, l.MediaType = mediaTypeModel) ∧
        lastModelDigest m.Layers = some mi.MainModelBlob) := by
  constructor
  · intro manifestsDir path info err m acc hno
    rcases walkFn_models manifestsDir verbose path info err (FileContent.manifest m) acc
      with heq | ⟨m1, mi, hc, _, _, ⟨family, variant, _, _, hmi, hmain⟩, _⟩
    · exact heq
    · injection hc with hc
      subst hc
      rw [hmi, scanLayers_main, lastModelDigest_none hno] at hmain
      exact absurd rfl hmain
  · intro mi hmi
    obtain ⟨m, hm, hprod⟩ := discoverModels_models ollamaDir verbose manifests mi hmi
    have hprod2 := hprod
    obtain ⟨family, variant, _, _, heq, hmain⟩ := hprod2
    refine ⟨hmain, m, hm, hprod, ?_⟩
    have hb : mi.MainModelBlob = (lastModelDigest m.Layers).getD [] := by
      rw [heq, scanLayers_main]
    cases hl : lastModelDigest m.Layers with
    | none => rw [hl] at hb; exact absurd hb hmain
    | some d =>
      rw [hl] at hb
      obtain ⟨l, hl1, hl2, _⟩ := lastModelDigest_some hl
      exact ⟨⟨l, hl1, hl2⟩, by rw [hb]; rfl⟩

/-- Witness of **C2**: of two primary-model layers the last one wins, and a manifest
with a projector layer only is dropped. -/
theorem discoverModels_keeps_only_primary_witness :
    (discoverModels "/ollama".toList false
      (some (llama3Tree "8b".toList (FileContent.manifest
        ⟨2, [], ⟨[], [], 0⟩,
          [⟨mediaTypeModel, "sha256:first".toList, 1⟩,
           ⟨mediaTypeModel, "sha256:last".toList, 1⟩]⟩)))).1
      = [⟨"llama3-8b".toList, "sha256:last".toList, []⟩] ∧
    (walkFn "/ollama/manifests".toList false
      "/ollama/manifests/registry.ollama.ai/library/llama3/8b".toList
      (some ⟨"8b".toList, false⟩) none
      (FileContent.manifest
        ⟨2, [], ⟨[], [], 0⟩, [⟨mediaTypeProjector, "sha256:bbb222".toList, 1⟩]⟩)
      ⟨[], []⟩).1.models = [] :=
  ⟨by decide,
    (discoverModels_keeps_only_primary "/ollama".toList false none).1
      "/ollama/manifests".toList
      "/ollama/manifests/registry.ollama.ai/library/llama3/8b".toList
      (some ⟨"8b".toList, false⟩) none
      ⟨2, [], ⟨[], [], 0⟩, [⟨mediaTypeProjector, "sha256:bbb222".toList, 1⟩]⟩ ⟨[], []⟩
      (by decide)⟩

/-- **C8**, amended. Let a model produced by `discoverModels` be materialised live into
a model directory that holds no entries, no `ERROR` and no `Warning` line being
printed. All auxiliary blobs of the model share the destination
`{providerRoot}/{Name}/{Name}-projector.bin`; after `processModel` a symbolic link is
there, and its target is `{ollamaDir}/blobs/{d with ':' replaced by '-'}` for the
auxiliary digest `d` that the range over `AdditionalBlobs` visits first. For a model
with one auxiliary digest this is that digest.

That the model directory holds no entries is asked of the state in which the links are
made, after `os.MkdirAll`: no plain name below the directory refers to anything. By
`os.MkdirAll_keeps_empty` this is so whenever it is so beforehand and the directory
above the model directory exists, as it does when `main` has made the provider
directory. -/
theorem processModel_links_first_projector (ρ : RangeOrder) (hρ : ρ.Lawful)
    (m : OllamaManifest) (mi : ModelInfo) (hprod : Produced m mi)
    (ollamaDir ollamaProviderDir : Str) (verbose : Bool) (fs : FS)
    (d f : Str) (rest : List (Str × Str))
    (hfirst : ρ mi.AdditionalBlobs = (d, f) :: rest)
    (hempty : ∀ x : Str, PlainName x → ∃ e,
      os.Lstat (os.MkdirAll fs (filepath.Join [ollamaProviderDir, mi.Name])).1
        (filepath.Join [filepath.Join [ollamaProviderDir, mi.Name], x]) = Except.error e)
    (hok : ∀ l ∈ (processModel ρ mi ollamaDir ollamaProviderDir false verbose fs).out,
      l.isError = false ∧ l.isLinkWarning = false) :
    f = mi.Name ++ "-projector.bin".toList ∧
    os.Lstat (processModel ρ mi ollamaDir ollamaProviderDir false verbose fs).fs
        (filepath.Join [filepath.Join [ollamaProviderDir, mi.Name], f])
      = Except.ok (Node.link
          (filepath.Join [ollamaDir, "blobs".toList, strings.Replace d ':' '-' 1])) := by
  obtain ⟨hslash, hblobs⟩ := hprod.names
  -- the file names involved
  have hf : f = mi.Name ++ "-projector.bin".toList := by
    have hmem : (d, f) ∈ mi.AdditionalBlobs :=
      (hρ mi.AdditionalBlobs).mem_iff.1 (by rw [hfirst]; exact List.mem_cons_self _ _)
    exact hblobs (d, f) hmem
  have hgp : PlainName (mi.Name ++ ".gguf".toList) :=
    plainName_append hslash (by decide) (by decide)
  have hfp : PlainName f := hf ▸ plainName_append hslash (by decide) (by decide)
  have hfg : f ≠ mi.Name ++ ".gguf".toList := by
    rw [hf]
    intro h
    exact absurd (List.append_cancel_left h) (by decide)
  refine ⟨hf, ?_⟩
  have hj := namei_join (filepath.Join [ollamaProviderDir, mi.Name])
  -- nothing is at the primary link path beforehand
  have hle1 := os.MkdirAll_le fs (modelDirOf ollamaProviderDir mi)
  obtain ⟨eg, hg1⟩ := hempty (mi.Name ++ ".gguf".toList) hgp
  obtain ⟨ef, hf1⟩ := hempty f hfp
  cases hl : os.Lstat fs (mainModelPathOf ollamaProviderDir mi) with
  | ok n =>
    have := os.Lstat_mono hle1 hl
    unfold mainModelPathOf modelDirOf at this
    rw [this] at hg1
    cases hg1
  | error e =>
    rw [processModel_live _ _ _ _ _ _ e hl] at hok ⊢
    unfold modelDirOf at hle1
    generalize hmk : os.MkdirAll fs (filepath.Join [ollamaProviderDir, mi.Name]) = r
      at hok hle1 hg1 hf1 ⊢
    obtain ⟨fs1, e1⟩ := r
    simp only [modelDirOf, hmk] at hok ⊢
    cases e1 with
    | some e1 =>
      have := (hok (Line.errorDirectory mi.Name e1) (by simp)).1
      simp [Line.isError] at this
    | none =>
      simp only at hok hg1 hf1 hle1 ⊢
      cases hs : os.Symlink fs1 (blobPathOf ollamaDir mi.MainModelBlob)
          (mainModelPathOf ollamaProviderDir mi) with
      | error e2 =>
        rw [hs] at hok
        have := (hok (Line.errorSymlink mi.Name e2) (by simp)).1
        simp [Line.isError] at this
      | ok fs2 =>
        simp only
        -- where the primary link was put
        unfold os.Symlink mainModelPathOf modelDirOf at hs
        rw [hj _ hgp] at hs
        cases hw : walkPath fs1 false pathBudget
            (if joinRooted (filepath.Join [ollamaProviderDir, mi.Name]) = true then []
              else fs1.cwd)
            (joinLead (filepath.Join [ollamaProviderDir, mi.Name])
              ++ [mi.Name ++ ".gguf".toList]) with
        | found q nd => rw [hw] at hs; cases hs
        | err e3 => rw [hw] at hs; cases hs
        | missing dir n =>
          rw [hw] at hs
          simp only at hs
          injection hs with hs
          obtain ⟨hn, hsib1⟩ := walkPath_sibling (FS.Le.refl fs1) ⟨hgp.2.2.1, hgp.2.2.2⟩
            ⟨hfp.2.2.1, hfp.2.2.2⟩ _ _ _ _ _ hw
          subst hn
          -- the auxiliary path names nothing in the directory
          have hnone1 : fs1.node (dir ++ [f]) = none := by
            unfold os.Lstat at hf1
            rw [hj _ hfp, hsib1] at hf1
            cases hnd : fs1.node (dir ++ [f]) with
            | none => rfl
            | some nd => rw [hnd] at hf1; cases hf1
          have hins := walkPath_missing (Node.link (blobPathOf ollamaDir mi.MainModelBlob))
            _ _ _ _ _ hw
          have hle2 : fs1.Le fs2 := hs ▸ FS.le_insert _ hins.1
          have hcwd : fs2.cwd = fs1.cwd := hle2.1.symm
          obtain ⟨_, hsib2⟩ := walkPath_sibling hle2 ⟨hgp.2.2.1, hgp.2.2.2⟩
            ⟨hfp.2.2.1, hfp.2.2.2⟩ _ _ _ _ _ hw
          have hnone2 : fs2.node (dir ++ [f]) = none := by
            rw [← hs, FS.node_insert]
            have h1 : dir ++ [f] ≠ [] := by simp
            have h2 : dir ++ [mi.Name ++ ".gguf".toList] ≠ dir ++ [f] := by
              intro h
              exact hfg (by simpa using h.symm)
            simp only [h1, h2, if_false]
            exact hnone1
          rw [hnone2] at hsib2
          have hnamei : namei fs2 false
              (filepath.Join [filepath.Join [ollamaProviderDir, mi.Name], f])
              = Walked.missing dir f := by
            rw [hj _ hfp, hcwd]
            exact hsib2
          -- the first turn of the loop makes the link
          rw [hfirst]
          simp only [additionalLoop, os.Lstat, hnamei, os.Symlink]
          refine os.Lstat_mono (additionalLoop_le _ _ _ _ _) ?_
          have hlink : os.Symlink fs2 (blobPathOf ollamaDir d)
              (filepath.Join [filepath.Join [ollamaProviderDir, mi.Name], f])
              = Except.ok (fs2.insert (dir ++ [f]) (Node.link (blobPathOf ollamaDir d))) := by
            simp only [os.Symlink, hnamei]
          exact (os.Symlink_ok hlink).2

/-- Witness of **C8**, amended: the scenario of the specification with the projector
layer; the link `llama3-8b-projector.bin` points at the blob `sha256-bbb222`. -/
theorem processModel_links_first_projector_witness :
    (discoverModels "/ollama".toList false (some exTree)).1 = [exModel] ∧
    os.Lstat (processModel id exModel "/ollama".toList "/lms/ollama".toList false true
        providerFS).fs
        "/lms/ollama/llama3-8b/llama3-8b-projector.bin".toList
      = Except.ok (Node.link "/ollama/blobs/sha256-bbb222".toList) :=
  ⟨by decide,
    (processModel_links_first_projector id (fun m => List.Perm.refl m) exManifest exModel
      ⟨"llama3".toList, "8b".toList, by decide, by decide, by decide, by decide⟩
      "/ollama".toList "/lms/ollama".toList true providerFS "sha256:bbb222".toList
      "llama3-8b-projector.bin".toList [] rfl
      (os.MkdirAll_keeps_empty providerFS "/lms/ollama".toList exModel.Name
        ⟨by decide, by decide, by decide, by decide⟩ providerFS_wellFormed
        (fun par hpar => by
          have h : os.parentOf (filepath.Join ["/lms/ollama".toList, exModel.Name])
              = some "/lms/ollama".toList := by decide
          rw [h] at hpar
          injection hpar with hpar
          subst hpar
          decide)
        providerFS_no_entries)
      (by decide)).2⟩

/-- Counterexample to **C8** as stated. The manifest has two projector layers, of
digests `sha256:bbb222` and `sha256:ccc333`; the model directory does not exist
beforehand and no creation fails (no `ERROR`, no `Warning` line). Both digests are
auxiliary blobs of the discovered model, with the one destination
`llama3-8b-projector.bin`: the link made there points at the blob of the digest
visited first, and no link points at the blob of the other one. -/
theorem processModel_second_projector_gets_no_link :
    (discoverModels "/ollama".toList false
      (some (llama3Tree "8b".toList (FileContent.manifest twoProjectorManifest)))).1
      = [twoProjectorModel] ∧
    os.Stat emptyFS "/lms/ollama/llama3-8b".toList = Except.error Errno.ENOENT ∧
    (processModel id twoProjectorModel "/ollama".toList "/lms/ollama".toList false true
        emptyFS).out
      = [Line.creating "llama3-8b".toList,
         Line.mainModel "/lms/ollama/llama3-8b/llama3-8b.gguf".toList
           "/ollama/blobs/sha256-aaa111".toList,
         Line.additional "/lms/ollama/llama3-8b/llama3-8b-projector.bin".toList
           "/ollama/blobs/sha256-bbb222".toList,
         Line.additionalExists "llama3-8b-projector.bin".toList] ∧
    ("sha256:ccc333".toList, "llama3-8b-projector.bin".toList)
      ∈ twoProjectorModel.AdditionalBlobs ∧
    os.Lstat (processModel id twoProjectorModel "/ollama".toList "/lms/ollama".toList false
        true emptyFS).fs
        (filepath.Join [filepath.Join ["/lms/ollama".toList, twoProjectorModel.Name],
          "llama3-8b-projector.bin".toList])
      = Except.ok (Node.link "/ollama/blobs/sha256-bbb222".toList) ∧
    (∀ e ∈ (processModel id twoProjectorModel "/ollama".toList "/lms/ollama".toList false
        true emptyFS).fs.entries,
      e.2 ≠ Node.link (filepath.Join ["/ollama".toList, "blobs".toList,
        strings.Replace "sha256:ccc333".toList ':' '-' 1])) ∧
    os.Lstat (processModel List.reverse twoProjectorModel "/ollama".toList
        "/lms/ollama".toList false true emptyFS).fs
        "/lms/ollama/llama3-8b/llama3-8b-projector.bin".toList
      = Except.ok (Node.link "/ollama/blobs/sha256-ccc333".toList) := by
  decide

end OllamaSymlinks
